import Mathlib

/-!
# Verification of the Invoice_Data_Extractor reshaping pipeline

Shallow embedding of the JSON-normalization / tabular-reshaping pipeline of
`src/app.py` (functions `clean_json_output`, `flatten_dict`,
`separate_summary_and_items`, `deep_get`, and the custom-template `records`
loop), together with a spec-modelled Column Reconciler (the spec's §4.3
`reconcile`, which has no implementation under `src/`).

Modelling conventions:
* Python/JSON values are `JsonValue`; JSON numbers are modelled as integers
  only (float literals, `NaN`/`Infinity`, and surrogate `\uXXXX` escapes
  are outside the model: they cannot be represented faithfully by
  Lean's `Int`/`Char`, and no claim exercises them).
* Python dicts are insertion-ordered association lists with unique keys;
  inserting an existing key replaces the value in place, a new key appends.
* Text is processed as `List Char`; `str.strip`, `str.replace`, and the
  three `re.sub` calls of the source are modelled by direct scanning
  functions that implement the exact leftmost, non-overlapping,
  greedy-quantifier semantics of Python's `re.sub` for those fixed patterns.
* `json.loads` is modelled by a fuel-indexed recursive-descent parser
  following Python's strict `json` module semantics (JSON whitespace set,
  string escapes, control characters rejected unescaped, duplicate object
  keys resolved by dict insertion).
* Exceptions that the Streamlit driver would catch (e.g. `.get` on a
  non-dict) are modelled with `Option`, `none` standing for the raised
  exception.
-/

/-- JSON / parsed-Python values.  Numbers are modelled as integers (see the
module docstring). -/
inductive JsonValue : Type where
  | null : JsonValue
  | bool : Bool → JsonValue
  | num : Int → JsonValue
  | str : String → JsonValue
  | arr : List JsonValue → JsonValue
  | obj : List (String × JsonValue) → JsonValue

mutual

def decEqJsonValue (v₁ v₂ : JsonValue) : Decidable (v₁ = v₂) := by
  cases v₁ <;> cases v₂ <;>
    try (apply isFalse; intro h; exact JsonValue.noConfusion h)
  case null.null => exact isTrue rfl
  case bool.bool b₁ b₂ =>
    exact match decEq b₁ b₂ with
    | isTrue h => isTrue (by rw [h])
    | isFalse h => isFalse (by intro h2; injection h2; contradiction)
  case num.num n₁ n₂ =>
    exact match decEq n₁ n₂ with
    | isTrue h => isTrue (by rw [h])
    | isFalse h => isFalse (by intro h2; injection h2; contradiction)
  case str.str s₁ s₂ =>
    exact match decEq s₁ s₂ with
    | isTrue h => isTrue (by rw [h])
    | isFalse h => isFalse (by intro h2; injection h2; contradiction)
  case arr.arr l₁ l₂ =>
    exact match decEqJsonList l₁ l₂ with
    | isTrue h => isTrue (by rw [h])
    | isFalse h => isFalse (by intro h2; injection h2; contradiction)
  case obj.obj f₁ f₂ =>
    exact match decEqJsonFields f₁ f₂ with
    | isTrue h => isTrue (by rw [h])
    | isFalse h => isFalse (by intro h2; injection h2; contradiction)

def decEqJsonList (l₁ l₂ : List JsonValue) : Decidable (l₁ = l₂) :=
  match l₁, l₂ with
  | [], [] => isTrue rfl
  | _ :: _, [] | [], _ :: _ => isFalse (by intro h; exact List.noConfusion h)
  | v₁ :: t₁, v₂ :: t₂ =>
    match decEqJsonValue v₁ v₂, decEqJsonList t₁ t₂ with
    | isTrue h₁, isTrue h₂ => isTrue (by rw [h₁, h₂])
    | isFalse h₁, _ => isFalse (by intro h; injection h; contradiction)
    | _, isFalse h₂ => isFalse (by intro h; injection h; contradiction)

def decEqJsonFields (l₁ l₂ : List (String × JsonValue)) : Decidable (l₁ = l₂) :=
  match l₁, l₂ with
  | [], [] => isTrue rfl
  | _ :: _, [] | [], _ :: _ => isFalse (by intro h; exact List.noConfusion h)
  | (k₁, v₁) :: t₁, (k₂, v₂) :: t₂ =>
    match decEq k₁ k₂, decEqJsonValue v₁ v₂, decEqJsonFields t₁ t₂ with
    | isTrue h₁, isTrue h₂, isTrue h₃ => isTrue (by rw [h₁, h₂, h₃])
    | isFalse h₁, _, _ =>
      isFalse (by intro h; injection h with hp ht; injection hp; contradiction)
    | _, isFalse h₂, _ =>
      isFalse (by intro h; injection h with hp ht; injection hp; contradiction)
    | _, _, isFalse h₃ => isFalse (by intro h; injection h; contradiction)

end

instance : DecidableEq JsonValue := decEqJsonValue

namespace JsonText

theorem dropWhile_len_le (p : Char → Bool) (l : List Char) :
    (l.dropWhile p).length ≤ l.length := by
  induction l with
  | nil => simp
  | cons a t ih =>
    by_cases h : p a
    · simp [List.dropWhile_cons, h]
      omega
    · simp [List.dropWhile_cons, h]

/-- Python `str.strip()` whitespace (ASCII fragment; the source never feeds
non-ASCII whitespace through `strip`). -/
def isPyWs (c : Char) : Bool :=
  c = ' ' || c = '\t' || c = '\n' || c = '\r' || c = '\x0b' || c = '\x0c'

/-- Python `str.strip()` on a character list. -/
def pyStrip (cs : List Char) : List Char :=
  ((cs.dropWhile isPyWs).reverse.dropWhile isPyWs).reverse

/-- One step of `re.sub(r"^```(?:json)?", "", text, flags=re.MULTILINE)`:
the boolean records whether the current scan position is a line start
(position 0, or just after a newline of the original text).  At a line start
the greedy alternative tries the 7-character fence-plus-tag first, then the
3-character fence; a match is replaced by nothing and scanning resumes after
it, which is never again a line start since the removed characters end in a
non-newline. -/
def sub1Go : Bool → List Char → List Char
  | _, [] => []
  | true, '\x60' :: '\x60' :: '\x60' :: 'j' :: 's' :: 'o' :: 'n' :: rest =>
      sub1Go false rest
  | true, '\x60' :: '\x60' :: '\x60' :: rest => sub1Go false rest
  | _, c :: rest => c :: sub1Go (c = '\n') rest

/-- `re.sub(r"^```(?:json)?", "", text, flags=re.MULTILINE)`. -/
def sub1 (cs : List Char) : List Char := sub1Go true cs

/-- `re.sub(r"```$", "", text)` where `text` is already stripped (which the
source guarantees): without `re.MULTILINE`, `$` matches only at the end of
the string or before a trailing newline, and a stripped string has no
trailing newline, so the substitution removes one trailing fence if
present. -/
def sub2 (cs : List Char) : List Char :=
  if cs.reverse.take 3 = ['\x60', '\x60', '\x60'] then (cs.reverse.drop 3).reverse
  else cs

/-- Python `text.replace("\n", " ")`. -/
def replaceNl (cs : List Char) : List Char :=
  cs.map (fun c => if c = '\n' then ' ' else c)

/-- Python regex `\s` character class (ASCII fragment). -/
def isPyRegexWs (c : Char) : Bool :=
  c = ' ' || c = '\t' || c = '\n' || c = '\r' || c = '\x0b' || c = '\x0c'

/-- Identifier characters of the repair pattern `[A-Za-z0-9_]`. -/
def isIdentChar (c : Char) : Bool :=
  ('A' ≤ c && c ≤ 'Z') || ('a' ≤ c && c ≤ 'z') || ('0' ≤ c && c ≤ '9') || c = '_'

/-- Attempt to match `\s*([A-Za-z0-9_]+):` (the part of the repair pattern
after the captured `{` or `,`) at the head of `rest`; returns the captured
identifier and the text after the colon.  The three character classes are
pairwise disjoint and the pattern ends in a fixed colon, so the greedy match
is exactly this maximal munch. -/
def matchBareKey (rest : List Char) : Option (List Char × List Char) :=
  let r1 := rest.dropWhile isPyRegexWs
  let id := r1.takeWhile isIdentChar
  let r2 := r1.dropWhile isIdentChar
  match id, r2 with
  | [], _ => none
  | _ :: _, ':' :: r3 => some (id, r3)
  | _ :: _, _ => none

theorem matchBareKey_lt {rest id r3} (h : matchBareKey rest = some (id, r3)) :
    r3.length < rest.length := by
  have hle1 : (rest.dropWhile isPyRegexWs).length ≤ rest.length := dropWhile_len_le _ _
  have hle2 : ((rest.dropWhile isPyRegexWs).dropWhile isIdentChar).length ≤
      (rest.dropWhile isPyRegexWs).length := dropWhile_len_le _ _
  unfold matchBareKey at h
  simp only at h
  split at h
  · exact absurd h (by simp)
  · rename_i heq1 heq2
    simp only [Option.some.injEq, Prod.mk.injEq] at h
    rw [heq2] at hle2
    have : _ = r3 := h.2
    subst this
    simp at hle2
    omega
  · exact absurd h (by simp)

/-- `re.sub(r"([{,])\s*([A-Za-z0-9_]+):", r'\1 "\2":', text)`: leftmost
non-overlapping scan; on a match emit the captured delimiter, one space, the
identifier wrapped in double quotes and the colon (the matched whitespace is
dropped by the replacement), and resume after the colon. -/
def fixKeysGoFuel : Nat → List Char → List Char
  | 0, cs => cs
  | _ + 1, [] => []
  | fuel + 1, c :: rest =>
    if c = '{' || c = ',' then
      match matchBareKey rest with
      | some (id, r3) => c :: ' ' :: '"' :: (id ++ '"' :: ':' :: fixKeysGoFuel fuel r3)
      | none => c :: fixKeysGoFuel fuel rest
    else
      c :: fixKeysGoFuel fuel rest

/-- `re.sub(r"([{,])\s*([A-Za-z0-9_]+):", r'\1 "\2":', text)`: leftmost
non-overlapping scan; on a match emit the captured delimiter, one space, the
identifier wrapped in double quotes and the colon (the matched whitespace is
dropped by the replacement), and resume after the colon.  Every step of
`fixKeysGoFuel` consumes at least one input character
(`matchBareKey_lt`), so the fuel `length + 1` is never exhausted and the
fuel-0 fallback is unreachable. -/
def fixKeysGo (cs : List Char) : List Char := fixKeysGoFuel (cs.length + 1) cs

end JsonText

namespace Json

open JsonText

/-- JSON whitespace accepted by Python's strict `json` decoder. -/
def isJsonWs (c : Char) : Bool :=
  c = ' ' || c = '\t' || c = '\n' || c = '\r'

def skipWs (cs : List Char) : List Char := cs.dropWhile isJsonWs

def isDigitChar (c : Char) : Bool := '0' ≤ c && c ≤ '9'

def hexDigitVal (c : Char) : Option Nat :=
  if '0' ≤ c && c ≤ '9' then some (c.toNat - 48)
  else if 'a' ≤ c && c ≤ 'f' then some (c.toNat - 87)
  else if 'A' ≤ c && c ≤ 'F' then some (c.toNat - 55)
  else none

def shortEscape (c : Char) : Option Char :=
  if c = '"' then some '"'
  else if c = '\\' then some '\\'
  else if c = '/' then some '/'
  else if c = 'b' then some '\x08'
  else if c = 'f' then some '\x0c'
  else if c = 'n' then some '\n'
  else if c = 'r' then some '\r'
  else if c = 't' then some '\t'
  else none

mutual

/-- Body of a JSON string after the opening quote: returns the decoded
characters and the input after the closing quote.  Follows Python's strict
decoder: unescaped control characters are rejected; `\uXXXX` escapes are
decoded (surrogate code units are outside the model, see the module
docstring). -/
def parseStringBody : List Char → Option (List Char × List Char)
  | [] => none
  | c :: rest =>
    if c = '"' then some ([], rest)
    else if c = '\\' then parseEscape rest
    else if c.toNat < 32 then none
    else (parseStringBody rest).map (fun p => (c :: p.1, p.2))

/-- The text after a backslash inside a JSON string: a `\uXXXX` escape
(surrogate code units are outside the model, see the module docstring) or a
short escape. -/
def parseEscape : List Char → Option (List Char × List Char)
  | 'u' :: h1 :: h2 :: h3 :: h4 :: rest2 =>
    (match hexDigitVal h1, hexDigitVal h2, hexDigitVal h3, hexDigitVal h4 with
     | some d1, some d2, some d3, some d4 =>
       let n := ((d1 * 16 + d2) * 16 + d3) * 16 + d4
       if n < 55296 || 57344 ≤ n then
         (parseStringBody rest2).map (fun p => (Char.ofNat n :: p.1, p.2))
       else none
     | _, _, _, _ => none)
  | e :: rest2 =>
    (match shortEscape e with
     | some c2 => (parseStringBody rest2).map (fun p => (c2 :: p.1, p.2))
     | none => none)
  | [] => none

end

def digitsToNat (ds : List Char) : Nat :=
  ds.foldl (fun a c => a * 10 + (c.toNat - 48)) 0

/-- Strict JSON integer literal.  Python's decoder matches the maximal
number literal and classifies it as a float when a fraction or exponent
part follows; float literals are outside the model, so those inputs are
rejected here (Python would also fail overall on every such input that the
claims exercise, since a digit run followed by a fraction can never be
followed by a valid delimiter when the fraction is rejected). -/
def parseNumber (cs : List Char) : Except String (JsonValue × List Char) :=
  let neg := cs.head? = some '-'
  let cs1 := if neg then cs.tail else cs
  let ds := cs1.takeWhile isDigitChar
  let rest := cs1.dropWhile isDigitChar
  match ds with
  | [] => .error "Expecting value"
  | d :: ds' =>
    if d = '0' && !ds'.isEmpty then .error "Expecting value"
    else
      let next := rest.head?
      if next = some '.' || next = some 'e' || next = some 'E' then
        .error "float literals are outside the model"
      else
        let n : Int := Int.ofNat (digitsToNat ds)
        .ok (.num (if neg then -n else n), rest)

/-- Python dict insertion: replacing an existing key keeps its position,
a new key is appended. -/
def objInsert (fields : List (String × JsonValue)) (k : String) (v : JsonValue) :
    List (String × JsonValue) :=
  if fields.any (fun kv => kv.1 = k) then
    fields.map (fun kv => if kv.1 = k then (k, v) else kv)
  else fields ++ [(k, v)]

mutual

/-- Recursive-descent JSON value parser (model of Python's strict
`json.loads` grammar); the fuel bounds recursion depth and plays the role of
Python's recursion limit. -/
def parseValue : Nat → List Char → Except String (JsonValue × List Char)
  | 0, _ => .error "maximum recursion depth exceeded"
  | fuel + 1, cs =>
    match skipWs cs with
    | [] => .error "Expecting value"
    | c :: rest =>
      if c = '-' || isDigitChar c then parseNumber (c :: rest)
      else if c = '"' then
        (match parseStringBody rest with
         | some (s, r) => .ok (.str ⟨s⟩, r)
         | none => .error "Unterminated or invalid string")
      else if c = '[' then
        (if (skipWs rest).head? = some ']' then .ok (.arr [], (skipWs rest).tail)
         else
           match parseValue fuel (skipWs rest) with
           | .ok (v, r2) => parseArrTail fuel [v] r2
           | .error e => .error e)
      else if c = '{' then
        (if (skipWs rest).head? = some '}' then .ok (.obj [], (skipWs rest).tail)
         else
           match parseMember fuel (skipWs rest) with
           | .ok (k, v, r2) => parseObjTail fuel (objInsert [] k v) r2
           | .error e => .error e)
      else if c = 't' then
        (match rest with
         | 'r' :: 'u' :: 'e' :: r => .ok (.bool true, r)
         | _ => .error "Expecting value")
      else if c = 'f' then
        (match rest with
         | 'a' :: 'l' :: 's' :: 'e' :: r => .ok (.bool false, r)
         | _ => .error "Expecting value")
      else if c = 'n' then
        (match rest with
         | 'u' :: 'l' :: 'l' :: r => .ok (.null, r)
         | _ => .error "Expecting value")
      else .error "Expecting value"

/-- One `"key": value` object member; the input is expected with leading
whitespace already skipped. -/
def parseMember : Nat → List Char → Except String (String × JsonValue × List Char)
  | 0, _ => .error "maximum recursion depth exceeded"
  | fuel + 1, cs =>
    match cs with
    | '"' :: rest =>
      (match parseStringBody rest with
       | some (k, r1) =>
         (match skipWs r1 with
          | ':' :: r2 =>
            (match parseValue fuel r2 with
             | .ok (v, r3) => .ok (⟨k⟩, v, r3)
             | .error e => .error e)
          | _ => .error "Expecting colon delimiter")
       | none => .error "Unterminated or invalid string")
    | _ => .error "Expecting property name enclosed in double quotes"

def parseArrTail : Nat → List JsonValue → List Char →
    Except String (JsonValue × List Char)
  | 0, _, _ => .error "maximum recursion depth exceeded"
  | fuel + 1, acc, cs =>
    match skipWs cs with
    | ']' :: r => .ok (.arr acc, r)
    | ',' :: r =>
      (match parseValue fuel r with
       | .ok (v, r2) => parseArrTail fuel (acc ++ [v]) r2
       | .error e => .error e)
    | _ => .error "Expecting comma delimiter"

def parseObjTail : Nat → List (String × JsonValue) → List Char →
    Except String (JsonValue × List Char)
  | 0, _, _ => .error "maximum recursion depth exceeded"
  | fuel + 1, acc, cs =>
    match skipWs cs with
    | '}' :: r => .ok (.obj acc, r)
    | ',' :: r =>
      (match parseMember fuel (skipWs r) with
       | .ok (k, v, r2) => parseObjTail fuel (objInsert acc k v) r2
       | .error e => .error e)
    | _ => .error "Expecting comma delimiter"

end

/-- `json.loads` on a character list: parse one value, then require only
trailing whitespace. -/
def parseTop (cs : List Char) : Except String JsonValue :=
  match parseValue (cs.length + 1) cs with
  | .ok (v, rest) => if (skipWs rest).isEmpty then .ok v else .error "Extra data"
  | .error e => .error e

/-- `json.loads` on a string. -/
def loads (s : String) : Except String JsonValue := parseTop s.data

end Json

namespace Json

def hexDigitChar (n : Nat) : Char :=
  if n < 10 then Char.ofNat (48 + n) else Char.ofNat (87 + n)

/-- Serialize one string character as strict JSON (quote and backslash
escaped, control characters as `\u00XX`, everything else literal). -/
def escapeChar (c : Char) : List Char :=
  if c = '"' then ['\\', '"']
  else if c = '\\' then ['\\', '\\']
  else if c.toNat < 32 then
    ['\\', 'u', '0', '0', hexDigitChar (c.toNat / 16), hexDigitChar (c.toNat % 16)]
  else [c]

def escapeString (s : String) : List Char :=
  '"' :: (s.data.map escapeChar).flatten ++ ['"']

def natDigitsRevFuel : Nat → Nat → List Char
  | 0, _ => []
  | fuel + 1, n =>
    if n < 10 then [Char.ofNat (48 + n)]
    else Char.ofNat (48 + n % 10) :: natDigitsRevFuel fuel (n / 10)

/-- Least-significant-first decimal digits; each step divides by 10, so the
fuel `n + 1` is never exhausted. -/
def natDigitsRev (n : Nat) : List Char := natDigitsRevFuel (n + 1) n

def natToChars (n : Nat) : List Char := (natDigitsRev n).reverse

def intToChars (i : Int) : List Char :=
  if i < 0 then '-' :: natToChars (-i).toNat else natToChars i.toNat

mutual

/-- Strict JSON serializer (compact separators).  Its output is the
"strict JSON text" of the round-trip claims. -/
def dumpChars : JsonValue → List Char
  | .null => "null".data
  | .bool true => "true".data
  | .bool false => "false".data
  | .num i => intToChars i
  | .str s => escapeString s
  | .arr xs => '[' :: dumpElems xs ++ [']']
  | .obj kvs => '{' :: dumpFields kvs ++ ['}']

def dumpElems : List JsonValue → List Char
  | [] => []
  | [x] => dumpChars x
  | x :: y :: xs => dumpChars x ++ ',' :: dumpElems (y :: xs)

def dumpFields : List (String × JsonValue) → List Char
  | [] => []
  | [(k, v)] => escapeString k ++ ':' :: dumpChars v
  | (k, v) :: kv :: kvs => escapeString k ++ ':' :: dumpChars v ++ ',' :: dumpFields (kv :: kvs)

end

def dumps (v : JsonValue) : String := ⟨dumpChars v⟩

end Json

/-- The cleaned text of `clean_json_output` (`src/app.py` lines 58-60):
strip, remove line-initial code fences (MULTILINE), strip, remove one
trailing fence, collapse newlines to spaces, strip. -/
def cleanedText (raw : String) : List Char :=
  let t1 := JsonText.sub1 (JsonText.pyStrip raw.data)
  let t2 := JsonText.sub2 (JsonText.pyStrip t1)
  JsonText.pyStrip (JsonText.replaceNl t2)

/-- The repair substitution of `clean_json_output` (line 65). -/
def fixKeys (cs : List Char) : List Char := JsonText.fixKeysGo cs

/-- `clean_json_output` (`src/app.py` lines 55-68).  The argument is
`Option String` so that Python `None` (falsy, like the empty string) is
representable. -/
def clean_json_output (raw_text : Option String) : JsonValue :=
  match raw_text with
  | none => .obj [("error", .str "no output")]
  | some raw =>
    if raw = "" then .obj [("error", .str "no output")]
    else
      let text := cleanedText raw
      match Json.parseTop text with
      | .ok v => v
      | .error _ =>
        match Json.parseTop (fixKeys text) with
        | .ok v => v
        | .error e2 =>
          .obj [("error", .str ("JSON parse failed: " ++ e2)),
                ("raw", .str ⟨text⟩)]

/-- Python `dict(pairs)` (fold of dict insertion into an empty dict). -/
def pyDict (l : List (String × JsonValue)) : List (String × JsonValue) :=
  l.foldl (fun d kv => Json.objInsert d kv.1 kv.2) []

/-- Python `d.update(pairs)`. -/
def pyUpdate (d : List (String × JsonValue)) (l : List (String × JsonValue)) :
    List (String × JsonValue) :=
  l.foldl (fun d kv => Json.objInsert d kv.1 kv.2) d

mutual

/-- One value's contribution to the `items` list of `flatten_dict`
(`src/app.py` lines 72-77): a nested dict contributes the pairs of its own
(already deduplicated) flattened dict, anything else one pair under the
concatenated key. -/
def flattenValue : String → JsonValue → List (String × JsonValue)
  | new_key, .obj f2 => pyDict (flattenFields f2 new_key)
  | new_key, v => [(new_key, v)]

/-- The `items` list accumulated by `flatten_dict` (`src/app.py` lines
70-78) before the final `dict(items)`. -/
def flattenFields : List (String × JsonValue) → String → List (String × JsonValue)
  | [], _ => []
  | (k, v) :: rest, parent =>
    flattenValue (if parent = "" then k else parent ++ "_" ++ k) v ++
      flattenFields rest parent

end

/-- `flatten_dict` (`src/app.py` lines 70-78), on the fields of a dict,
with the source's default separator `"_"`. -/
def flatten_dict (d : List (String × JsonValue)) (parent_key : String) :
    List (String × JsonValue) :=
  pyDict (flattenFields d parent_key)

def isObjVal : JsonValue → Bool
  | .obj _ => true
  | _ => false

def fieldsOfObj : JsonValue → List (String × JsonValue)
  | .obj f => f
  | _ => []

/-- Loop body of `separate_summary_and_items` (`src/app.py` lines 83-89),
acting on the accumulator (flat_data, items rows). -/
def sepStep (acc : List (String × JsonValue) × List (List (String × JsonValue)))
    (kv : String × JsonValue) :
    List (String × JsonValue) × List (List (String × JsonValue)) :=
  match kv.2 with
  | .arr xs =>
    if xs.all isObjVal then (acc.1, acc.2 ++ xs.map fieldsOfObj)
    else (Json.objInsert acc.1 kv.1 (.arr xs), acc.2)
  | .obj f2 => (pyUpdate acc.1 (flatten_dict f2 kv.1), acc.2)
  | v => (Json.objInsert acc.1 kv.1 v, acc.2)

/-- `separate_summary_and_items` (`src/app.py` lines 80-91) on the fields of
the parsed dict.  The first component models `flat_data` (the summary
table's Field Name/Value pairs, in order); the second models the rows of
`items_df` (`pd.concat` row concatenation; pandas column alignment and
NaN-filling are serialization mechanics outside the model). -/
def separate_summary_and_items (parsed : List (String × JsonValue)) :
    List (String × JsonValue) × List (List (String × JsonValue)) :=
  parsed.foldl sepStep ([], [])

/-- First-match dict lookup (Python `k in d` / `d[k]`; dicts have unique
keys, so first-match is exact). -/
def jlookup (k : String) (fields : List (String × JsonValue)) : Option JsonValue :=
  (fields.find? (fun kv => kv.1 = k)).map (fun kv => kv.2)

def deepGetGo : JsonValue → List String → JsonValue
  | d, [] => d
  | d, k :: ks =>
    match d with
    | .obj f =>
      (match jlookup k f with
       | some v => deepGetGo v ks
       | none => .str "Not Found")
    | _ => .str "Not Found"

/-- Python `path.split(".")`, structurally on characters (`acc` holds the
current segment reversed). -/
def splitDotsGo : List Char → List Char → List String
  | [], acc => [⟨acc.reverse⟩]
  | '.' :: rest, acc => (⟨acc.reverse⟩ : String) :: splitDotsGo rest []
  | c :: rest, acc => splitDotsGo rest (c :: acc)

/-- `deep_get` (`src/app.py` lines 110-117) at its call sites' default
`"Not Found"`. -/
def deep_get (data : JsonValue) (path : String) : JsonValue :=
  deepGetGo data (splitDotsGo path.data [])

/-- `Inv Date` of one custom-template row (`src/app.py` line 252):
`s.get("alternative_date")` unless that is absent, `None` or
`"Not Found"`, in which case `s.get("date", "Not Found")`. -/
def siteInvDate (sf : List (String × JsonValue)) : JsonValue :=
  match jlookup "alternative_date" sf with
  | some v =>
    if v = .str "Not Found" || v = .null then (jlookup "date" sf).getD (.str "Not Found")
    else v
  | none => (jlookup "date" sf).getD (.str "Not Found")

/-- One row of the custom template (`src/app.py` lines 253-262). -/
def siteRecord (i : Int) (vendor inv_no amount due : JsonValue)
    (sf : List (String × JsonValue)) : List (String × JsonValue) :=
  [("S. No", .num i),
   ("Vendor Name", vendor),
   ("Address", (jlookup "address" sf).getD (.str "Not Found")),
   ("Inv #", inv_no),
   ("Memo #", .str "Not Found"),
   ("Inv Date", siteInvDate sf),
   ("Due Date", due),
   ("Invoice Total", amount)]

def asObjFields : JsonValue → Option (List (String × JsonValue))
  | .obj f => some f
  | _ => none

/-- Python `enumerate(xs, i)`. -/
def numberFrom (i : Int) : List α → List (Int × α)
  | [] => []
  | x :: xs => (i, x) :: numberFrom (i + 1) xs

/-- The custom-template `records` construction (`src/app.py` lines
245-263).  `none` models an exception that the driver's `except` block
would catch: the parsed payload not being a dict, `sites` not being a list,
or a site entry not being a dict (for non-list `sites` the model is coarse:
Python would iterate an empty dict or empty string zero times, but no claim
exercises those degenerate shapes). -/
def buildRecords (parsed : JsonValue) : Option (List (List (String × JsonValue))) :=
  match parsed with
  | .obj pf =>
    let vendor := deep_get parsed "billing_details.payable_to"
    let inv_no := deep_get parsed "invoice.invoice_number"
    let amount := deep_get parsed "invoice.amount"
    let due := deep_get parsed "computed_due_date"
    (match (jlookup "sites" pf).getD (.arr []) with
     | .arr ss =>
       match ss.mapM asObjFields with
       | some sfs =>
         some ((numberFrom 1 sfs).map (fun p => siteRecord p.1 vendor inv_no amount due p.2))
       | none => none
     | _ => none)
  | _ => none

namespace Reconciler

/-- The "Not Found" sentinel of the spec. -/
def sentinel : JsonValue := .str "Not Found"

/-- Modelled from the spec: the Column Reconciler's `reconcile`
(spec §4.3) has no implementation under `src/` (only this repository's
other, absent variant uses an uploaded template's required columns), so it
is modelled from the spec's words.  Step 1: "For every column in
`requiredColumns` absent from any row, insert it into every row with the
'Not Found' sentinel value." -/
def fillRequired (req : List String) (r : List (String × JsonValue)) :
    List (String × JsonValue) :=
  r ++ (req.filter (fun c => !(r.any (fun kv => kv.1 = c)))).map (fun c => (c, sentinel))

def dedupFSGo (seen : List String) : List String → List String
  | [] => []
  | c :: rest =>
    if seen.contains c then dedupFSGo seen rest
    else c :: dedupFSGo (seen ++ [c]) rest

/-- First-seen-order deduplication of a name list. -/
def dedupFS (l : List String) : List String := dedupFSGo [] l

/-- Number of same-named column occurrences in one row. -/
def countIn (r : List (String × JsonValue)) (c : String) : Nat :=
  (r.filter (fun kv => kv.1 = c)).length

/-- The value of the `j`-th same-named variant of column `c` in a row
(`sentinel` when the row has fewer occurrences). -/
def variantVal (r : List (String × JsonValue)) (c : String) (j : Nat) : JsonValue :=
  match (r.filter (fun kv => kv.1 = c))[j]? with
  | some kv => kv.2
  | none => sentinel

/-- Modelled from the spec: a cell counts toward a variant's score when it
is neither the sentinel nor empty ("the variant with strictly more
non-'Not Found'/non-empty values across rows"). -/
def isFilled (v : JsonValue) : Bool := !(v = sentinel) && !(v = .str "")

def score (rows : List (List (String × JsonValue))) (c : String) (j : Nat) : Nat :=
  (rows.filter (fun r => isFilled (variantVal r c j))).length

def numVariants (rows : List (List (String × JsonValue))) (c : String) : Nat :=
  rows.foldl (fun m r => max m (countIn r c)) 0

/-- Modelled from the spec: "keep the variant with strictly more
non-'Not Found'/non-empty values across rows; ties keep the first-seen
variant." -/
def bestVariant (rows : List (List (String × JsonValue))) (c : String) : Nat :=
  (List.range (numVariants rows c)).foldl
    (fun best j => if score rows c j > score rows c best then j else best) 0

/-- Modelled from the spec: the final column list of `reconcile` — the
required columns (first-seen-deduped, all of which exist after filling),
followed by the remaining discovered columns in first-seen order. -/
def reconcileCols (rows1 : List (List (String × JsonValue))) (req : List String) :
    List String :=
  dedupFS req ++
    (dedupFS ((rows1.map (fun r => r.map (fun kv => kv.1))).flatten)).filter
      (fun c => !req.contains c)

/-- Modelled from the spec: `reconcile(rows, requiredColumns)` (spec §4.3):
fill required columns with the sentinel, deduplicate same-named columns by
best variant, and order columns as `requiredColumns` (first-seen-deduped)
followed by remaining discovered columns in first-seen order.  The table is
the resulting row sequence; each row's key list is the final column list. -/
def reconcile (rows : List (List (String × JsonValue))) (req : List String) :
    List (List (String × JsonValue)) :=
  (rows.map (fillRequired req)).map (fun r =>
    (reconcileCols (rows.map (fillRequired req)) req).map (fun c =>
      (c, variantVal r c (bestVariant (rows.map (fillRequired req)) c))))

end Reconciler

namespace Json

/-- Separator-decomposed tail of `dumpElems`: what follows the first
element's text in a serialized nonempty array. -/
def elemsSep : List JsonValue → List Char
  | [] => []
  | x :: xs => ',' :: dumpChars x ++ elemsSep xs

/-- One serialized object member. -/
def dumpMember (kv : String × JsonValue) : List Char :=
  escapeString kv.1 ++ ':' :: dumpChars kv.2

/-- Separator-decomposed tail of `dumpFields`. -/
def fieldsSep : List (String × JsonValue) → List Char
  | [] => []
  | kv :: kvs => ',' :: dumpMember kv ++ fieldsSep kvs

mutual

/-- Fuel measure of a value: an upper bound on the recursion depth the
parser needs to re-read its serialization. -/
def jsize : JsonValue → Nat
  | .null => 1
  | .bool _ => 1
  | .num _ => 1
  | .str _ => 1
  | .arr xs => jsizeArr xs
  | .obj kvs => jsizeObj kvs

def jsizeArr : List JsonValue → Nat
  | [] => 1
  | x :: xs => 1 + jsize x + jsizeArr xs

def jsizeObj : List (String × JsonValue) → Nat
  | [] => 1
  | (_, v) :: kvs => 1 + jsize v + jsizeObj kvs

end

mutual

/-- Well-formed values: every object has pairwise-distinct keys (true of
every value produced by parsing, since Python dicts have unique keys). -/
def wfObj : JsonValue → Bool
  | .null => true
  | .bool _ => true
  | .num _ => true
  | .str _ => true
  | .arr xs => wfArr xs
  | .obj kvs => wfFields kvs

def wfArr : List JsonValue → Bool
  | [] => true
  | x :: xs => wfObj x && wfArr xs

def wfFields : List (String × JsonValue) → Bool
  | [] => true
  | (k, v) :: kvs => !(kvs.any (fun kv => kv.1 = k)) && wfObj v && wfFields kvs

end

/-- Rests a serialized value may be followed by inside a larger
serialization: nothing, or a separator/closer. -/
def sepRest (rest : List Char) : Prop :=
  rest = [] ∨ ∃ c cs, rest = c :: cs ∧ (c = ',' ∨ c = ']' ∨ c = '}')

end Json

mutual

/-- Values all of whose parts are neither `null` nor the empty string (the
shape the extraction prompt instructs the model to produce, using the
"Not Found" sentinel for absent data). -/
def goodVal : JsonValue → Bool
  | .null => false
  | .bool _ => true
  | .num _ => true
  | .str s => !(s = "")
  | .arr xs => goodArr xs
  | .obj kvs => goodFields kvs

def goodArr : List JsonValue → Bool
  | [] => true
  | x :: xs => goodVal x && goodArr xs

def goodFields : List (String × JsonValue) → Bool
  | [] => true
  | (_, v) :: kvs => goodVal v && goodFields kvs

end

/-- A table cell as claim C8 demands it: a non-empty (non-null, non-empty
-string) value, or exactly the sentinel. -/
def cellOK (v : JsonValue) : Bool :=
  (!(v = JsonValue.null) && !(v = JsonValue.str "")) || v = JsonValue.str "Not Found"

/-- A top-level field value that `separate_summary_and_items` routes to the
items table. -/
def isListOfDicts : JsonValue → Bool
  | .arr xs => xs.all isObjVal
  | _ => false

/-- A scalar field value in the sense of claim C6 (not a mapping, not a
list). -/
def isScalar : JsonValue → Bool
  | .obj _ => false
  | .arr _ => false
  | _ => true

/-- The rows the items table should hold per claim C6: the concatenation,
in field order, of every top-level list-of-mappings field's rows. -/
def itemsOf (parsed : List (String × JsonValue)) : List (List (String × JsonValue)) :=
  (parsed.map (fun kv =>
    match kv.2 with
    | .arr xs => if xs.all isObjVal then xs.map fieldsOfObj else []
    | _ => [])).flatten

/-- The summary pairs each top-level field contributes when nothing
collides: flattened pairs for nested mappings, the field itself otherwise
(list-of-mappings fields contribute nothing). -/
def summaryPairsOf (parsed : List (String × JsonValue)) : List (String × JsonValue) :=
  (parsed.map (fun kv =>
    match kv.2 with
    | .arr xs => if xs.all isObjVal then [] else [(kv.1, .arr xs)]
    | .obj f2 => flatten_dict f2 kv.1
    | v => [(kv.1, v)])).flatten

def summaryKeys (parsed : List (String × JsonValue)) : List String :=
  (summaryPairsOf parsed).map (fun kv => kv.1)

/-- Claim C6 as stated, at one payload: items is the concatenation of the
list-of-mappings fields, every flattened pair of a nested-mapping field is
in the summary, and every scalar field is in the summary under its own key
(no top-level field lost). -/
def claimC6Holds (parsed : List (String × JsonValue)) : Prop :=
  (separate_summary_and_items parsed).2 = itemsOf parsed ∧
  ∀ kv ∈ parsed,
    (isObjVal kv.2 = true →
      ∀ pr ∈ flatten_dict (fieldsOfObj kv.2) kv.1, pr ∈ (separate_summary_and_items parsed).1) ∧
    (isScalar kv.2 = true → kv ∈ (separate_summary_and_items parsed).1)

instance (parsed : List (String × JsonValue)) : Decidable (claimC6Holds parsed) := by
  unfold claimC6Holds
  infer_instance

/-- The code-fence wrapping of claim C2's scenario. -/
def fenceWrap (s : String) : String := "```json\n" ++ s ++ "\n```"

/-- Unfolding of `clean_json_output` on a nonempty input. -/
theorem clean_json_output_some_ne (raw : String) (hraw : raw ≠ "") :
    clean_json_output (some raw) =
      match Json.parseTop (cleanedText raw) with
      | .ok v => v
      | .error _ =>
        (match Json.parseTop (fixKeys (cleanedText raw)) with
         | .ok v => v
         | .error e2 =>
           .obj [("error", .str ("JSON parse failed: " ++ e2)),
                 ("raw", .str ⟨cleanedText raw⟩)]) := by
  rw [clean_json_output, if_neg hraw]

/-! ## Claim theorems -/

/-- Claim C4, counterexample: on the empty string the normalizer returns
the marker `{error: "no output"}`, which is not the claimed
`{error: "Empty response"}`. -/
theorem C4_counterexample :
    clean_json_output (some "") = .obj [("error", .str "no output")] ∧
    JsonValue.obj [("error", JsonValue.str "no output")] ≠
      .obj [("error", .str "Empty response")] :=
  ⟨rfl, by decide⟩

/-- Claim C4, amended: for every empty or absent (None or empty-string) raw
input, the normalizer returns exactly the error marker
`{error: "no output"}` (the code's marker text, not the spec's
"Empty response"). -/
theorem C4_empty_input_marker (raw : Option String)
    (h : raw = none ∨ raw = some "") :
    clean_json_output raw = .obj [("error", .str "no output")] := by
  rcases h with h | h <;> subst h <;> rfl

/-- Witness for `C4_empty_input_marker` at `some ""`. -/
theorem C4_empty_input_marker_witness :
    ((some "" : Option String) = none ∨ (some "" : Option String) = some "") ∧
    clean_json_output (some "") = .obj [("error", .str "no output")] :=
  ⟨Or.inr rfl, C4_empty_input_marker (some "") (Or.inr rfl)⟩

/-- Claim C5, counterexample: the cleaned text `"[1]"` parses as strict
JSON to the list `[1]`, but the normalizer returns the list itself, not the
claimed wrapping `{data: [1]}`. -/
theorem C5_counterexample :
    Json.loads "[1]" = .ok (.arr [.num 1]) ∧
    clean_json_output (some "[1]") = .arr [.num 1] ∧
    clean_json_output (some "[1]") ≠ .obj [("data", .arr [.num 1])] :=
  ⟨rfl, rfl, by decide⟩

/-- Claim C5, amended: every input whose cleaned text parses as strict JSON
is returned exactly as parsed — a mapping as-is and a list as the list
itself, with no `{data: list}` wrapping. -/
theorem C5_parsed_value_returned (raw : String) (v : JsonValue)
    (h : Json.parseTop (cleanedText raw) = .ok v) :
    clean_json_output (some raw) = v := by
  by_cases hraw : raw = ""
  · subst hraw
    have he : Json.parseTop (cleanedText "") = .error "Expecting value" := rfl
    rw [he] at h
    exact Except.noConfusion h
  · rw [clean_json_output_some_ne raw hraw, h]

/-- Witness for `C5_parsed_value_returned` at `"[1]"`. -/
theorem C5_parsed_value_returned_witness :
    Json.parseTop (cleanedText "[1]") = .ok (.arr [.num 1]) ∧
    clean_json_output (some "[1]") = .arr [.num 1] :=
  ⟨rfl, C5_parsed_value_returned "[1]" (.arr [.num 1]) rfl⟩

/-- Claim C1: the normalizer is a total function (no parse-time exception
can propagate: both parse attempts are modelled by the total `parseTop`),
and whenever both the strict parse of the cleaned text and the re-parse of
the repaired text fail, it returns the terminal marker whose `error` field
is `"JSON parse failed: <message>"` (the second failure's message) and
whose `raw` field is the cleaned text. -/
theorem C1_terminal_error_marker (raw : String) (e1 e2 : String)
    (hraw : raw ≠ "")
    (h1 : Json.parseTop (cleanedText raw) = .error e1)
    (h2 : Json.parseTop (fixKeys (cleanedText raw)) = .error e2) :
    clean_json_output (some raw) =
      .obj [("error", .str ("JSON parse failed: " ++ e2)),
            ("raw", .str ⟨cleanedText raw⟩)] := by
  rw [clean_json_output_some_ne raw hraw, h1, h2]

/-- Witness for `C1_terminal_error_marker` at `"bogus"`. -/
theorem C1_terminal_error_marker_witness :
    ("bogus" ≠ "" ∧
      Json.parseTop (cleanedText "bogus") = .error "Expecting value" ∧
      Json.parseTop (fixKeys (cleanedText "bogus")) = .error "Expecting value") ∧
    clean_json_output (some "bogus") =
      .obj [("error", .str "JSON parse failed: Expecting value"),
            ("raw", .str "bogus")] :=
  ⟨⟨by decide, rfl, rfl⟩,
    C1_terminal_error_marker "bogus" "Expecting value" "Expecting value"
      (by decide) rfl rfl⟩

/-- Claim C3: when the strict parse of the cleaned text fails but the
single-pass regex repair (quoting bare identifier keys after `{` or `,`)
makes it parse, the normalizer returns the repaired parse's mapping. -/
theorem C3_repair_quotes_bare_keys (raw : String) (e1 : String) (v : JsonValue)
    (h1 : Json.parseTop (cleanedText raw) = .error e1)
    (h2 : Json.parseTop (fixKeys (cleanedText raw)) = .ok v) :
    clean_json_output (some raw) = v := by
  by_cases hraw : raw = ""
  · subst hraw
    have he : Json.parseTop (fixKeys (cleanedText "")) = .error "Expecting value" := rfl
    rw [he] at h2
    exact Except.noConfusion h2
  · rw [clean_json_output_some_ne raw hraw, h1, h2]

/-- Witness for `C3_repair_quotes_bare_keys` at the spec's Scenario B input
`'{a: 1, b: 2}'`, normalizing to `{"a": 1, "b": 2}`. -/
theorem C3_repair_quotes_bare_keys_witness :
    (Json.parseTop (cleanedText "\x7ba: 1, b: 2\x7d") =
        .error "Expecting property name enclosed in double quotes" ∧
      Json.parseTop (fixKeys (cleanedText "\x7ba: 1, b: 2\x7d")) =
        .ok (.obj [("a", .num 1), ("b", .num 2)])) ∧
    clean_json_output (some "\x7ba: 1, b: 2\x7d") =
      .obj [("a", .num 1), ("b", .num 2)] :=
  ⟨⟨rfl, rfl⟩,
    C3_repair_quotes_bare_keys "\x7ba: 1, b: 2\x7d"
      "Expecting property name enclosed in double quotes"
      (.obj [("a", .num 1), ("b", .num 2)]) rfl rfl⟩

theorem mapM_loop_asObjFields (sfs : List (List (String × JsonValue)))
    (acc : List (List (String × JsonValue))) :
    List.mapM.loop asObjFields (sfs.map JsonValue.obj) acc =
      some (acc.reverse ++ sfs) := by
  induction sfs generalizing acc with
  | nil => simp [List.mapM.loop]
  | cons sf tail ih =>
    simp only [List.map_cons, List.mapM.loop, asObjFields, Option.bind_eq_bind,
      Option.some_bind]
    rw [ih (sf :: acc)]
    simp

theorem mapM_asObjFields (sfs : List (List (String × JsonValue))) :
    (sfs.map JsonValue.obj).mapM asObjFields = some sfs := by
  have := mapM_loop_asObjFields sfs []
  simpa [List.mapM] using this

theorem numberFrom_length (i : Int) (l : List α) :
    (numberFrom i l).length = l.length := by
  induction l generalizing i with
  | nil => rfl
  | cons x xs ih => simp [numberFrom, ih]

theorem numberFrom_getElem (i : Int) (l : List α) (j : Nat) (hj : j < l.length)
    (hj2 : j < (numberFrom i l).length) :
    (numberFrom i l)[j] = (i + j, l[j]) := by
  induction l generalizing i j with
  | nil => exact absurd hj (by simp)
  | cons x xs ih =>
    cases j with
    | zero => simp [numberFrom]
    | succ j' =>
      have hj' : j' < xs.length := by simpa using hj
      have hj2' : j' < (numberFrom (i + 1) xs).length := by
        rw [numberFrom_length]; exact hj'
      simp only [numberFrom, List.getElem_cons_succ]
      rw [ih (i + 1) j' hj' hj2']
      simp
      omega

/-- `buildRecords` on a payload whose `sites` field is a list of site
mappings: one `siteRecord` per site, numbered from 1, with the four
invoice-level cells computed once from the payload. -/
theorem buildRecords_sites (pf : List (String × JsonValue))
    (sfs : List (List (String × JsonValue)))
    (hsites : jlookup "sites" pf = some (.arr (sfs.map JsonValue.obj))) :
    buildRecords (.obj pf) = some ((numberFrom 1 sfs).map (fun p =>
      siteRecord p.1 (deep_get (.obj pf) "billing_details.payable_to")
        (deep_get (.obj pf) "invoice.invoice_number")
        (deep_get (.obj pf) "invoice.amount")
        (deep_get (.obj pf) "computed_due_date") p.2)) := by
  rw [buildRecords]
  rw [hsites]
  simp only [Option.getD_some]
  rw [mapM_asObjFields]

/-- Claim C7: for a payload whose `sites` field is a list of N site
mappings, the custom-template construction produces exactly N rows; row i
(0-based here, so serial i+1) has `S. No` equal to its 1-based position,
and the non-expanded invoice-level columns (Vendor Name, Inv #, Due Date,
Invoice Total) hold the same payload-derived value in every row. -/
theorem C7_custom_template_rows (pf : List (String × JsonValue))
    (sfs recs : List (List (String × JsonValue)))
    (hsites : jlookup "sites" pf = some (.arr (sfs.map JsonValue.obj)))
    (hrecs : buildRecords (.obj pf) = some recs) :
    recs.length = sfs.length ∧
    ∀ i (hi : i < recs.length),
      jlookup "S. No" recs[i] = some (.num ((i : Int) + 1)) ∧
      jlookup "Vendor Name" recs[i] =
        some (deep_get (.obj pf) "billing_details.payable_to") ∧
      jlookup "Inv #" recs[i] =
        some (deep_get (.obj pf) "invoice.invoice_number") ∧
      jlookup "Due Date" recs[i] =
        some (deep_get (.obj pf) "computed_due_date") ∧
      jlookup "Invoice Total" recs[i] =
        some (deep_get (.obj pf) "invoice.amount") := by
  rw [buildRecords_sites pf sfs hsites] at hrecs
  have hrecs' := Option.some.inj hrecs
  subst hrecs'
  have hlen : ((numberFrom 1 sfs).map (fun p =>
      siteRecord p.1 (deep_get (.obj pf) "billing_details.payable_to")
        (deep_get (.obj pf) "invoice.invoice_number")
        (deep_get (.obj pf) "invoice.amount")
        (deep_get (.obj pf) "computed_due_date") p.2)).length = sfs.length := by
    rw [List.length_map, numberFrom_length]
  refine ⟨hlen, ?_⟩
  intro i hi
  have hi' : i < sfs.length := by rw [hlen] at hi; exact hi
  rw [List.getElem_map,
      numberFrom_getElem 1 sfs i hi' (by rw [numberFrom_length]; exact hi'),
      Int.add_comm 1 (i : Int)]
  exact ⟨rfl, rfl, rfl, rfl, rfl⟩

/-- Witness for `C7_custom_template_rows` on a two-site payload. -/
theorem C7_custom_template_rows_witness :
    (jlookup "sites"
        [("billing_details", JsonValue.obj [("payable_to", .str "Acme")]),
         ("sites", JsonValue.arr [.obj [("address", .str "A St")],
                                  .obj [("address", .str "B Ave")]])] =
        some (.arr ([[("address", JsonValue.str "A St")],
                     [("address", JsonValue.str "B Ave")]].map JsonValue.obj)) ∧
      buildRecords (.obj
        [("billing_details", JsonValue.obj [("payable_to", .str "Acme")]),
         ("sites", JsonValue.arr [.obj [("address", .str "A St")],
                                  .obj [("address", .str "B Ave")]])]) =
        some [siteRecord 1 (.str "Acme") (.str "Not Found") (.str "Not Found")
                (.str "Not Found") [("address", .str "A St")],
              siteRecord 2 (.str "Acme") (.str "Not Found") (.str "Not Found")
                (.str "Not Found") [("address", .str "B Ave")]]) ∧
    ([siteRecord 1 (.str "Acme") (.str "Not Found") (.str "Not Found")
        (.str "Not Found") [("address", JsonValue.str "A St")],
      siteRecord 2 (.str "Acme") (.str "Not Found") (.str "Not Found")
        (.str "Not Found") [("address", .str "B Ave")]].length =
      [[("address", JsonValue.str "A St")], [("address", JsonValue.str "B Ave")]].length) :=
  ⟨⟨rfl, rfl⟩,
    (C7_custom_template_rows
      [("billing_details", JsonValue.obj [("payable_to", .str "Acme")]),
       ("sites", JsonValue.arr [.obj [("address", .str "A St")],
                                .obj [("address", .str "B Ave")]])]
      [[("address", JsonValue.str "A St")], [("address", JsonValue.str "B Ave")]]
      [siteRecord 1 (.str "Acme") (.str "Not Found") (.str "Not Found")
         (.str "Not Found") [("address", .str "A St")],
       siteRecord 2 (.str "Acme") (.str "Not Found") (.str "Not Found")
         (.str "Not Found") [("address", .str "B Ave")]]
      rfl rfl).1⟩

/-- Claim C10: for every site in the payload's `sites` list, the
custom-template row's `Inv Date` cell equals the site's
`alternative_date` when that key is present and its value is neither null
nor the string "Not Found"; otherwise it equals the site's `date` value,
defaulting to "Not Found" when `date` is absent. -/
theorem C10_inv_date_cell (pf : List (String × JsonValue))
    (sfs recs : List (List (String × JsonValue)))
    (hsites : jlookup "sites" pf = some (.arr (sfs.map JsonValue.obj)))
    (hrecs : buildRecords (.obj pf) = some recs) :
    ∀ i (hi : i < sfs.length) (hi2 : i < recs.length),
      (∀ v, jlookup "alternative_date" sfs[i] = some v → v ≠ .null →
          v ≠ .str "Not Found" → jlookup "Inv Date" recs[i] = some v) ∧
      ((jlookup "alternative_date" sfs[i] = none ∨
          jlookup "alternative_date" sfs[i] = some .null ∨
          jlookup "alternative_date" sfs[i] = some (.str "Not Found")) →
        (∀ d, jlookup "date" sfs[i] = some d →
            jlookup "Inv Date" recs[i] = some d) ∧
        (jlookup "date" sfs[i] = none →
            jlookup "Inv Date" recs[i] = some (.str "Not Found"))) := by
  rw [buildRecords_sites pf sfs hsites] at hrecs
  have hrecs' := Option.some.inj hrecs
  subst hrecs'
  intro i hi hi2
  have hinv : jlookup "Inv Date"
      (((numberFrom 1 sfs).map (fun p =>
        siteRecord p.1 (deep_get (.obj pf) "billing_details.payable_to")
          (deep_get (.obj pf) "invoice.invoice_number")
          (deep_get (.obj pf) "invoice.amount")
          (deep_get (.obj pf) "computed_due_date") p.2))[i]) =
      some (siteInvDate sfs[i]) := by
    rw [List.getElem_map,
      numberFrom_getElem 1 sfs i hi (by rw [numberFrom_length]; exact hi)]
    rfl
  rw [hinv]
  constructor
  · intro v hv hvnull hvnf
    rw [siteInvDate, hv]
    simp [hvnull, hvnf]
  · intro halt
    constructor
    · intro d hd
      rcases halt with h | h | h <;>
        rw [siteInvDate, h] <;> simp [hd]
    · intro hd
      rcases halt with h | h | h <;>
        rw [siteInvDate, h] <;> simp [hd]

/-- Witness for `C10_inv_date_cell`: a site with a usable
`alternative_date` whose row shows it as `Inv Date`. -/
theorem C10_inv_date_cell_witness :
    (jlookup "sites" [("sites", JsonValue.arr
        [.obj [("date", .str "2025-09-18"), ("alternative_date", .str "2025-10-01")]])] =
      some (.arr ([[("date", JsonValue.str "2025-09-18"),
                    ("alternative_date", JsonValue.str "2025-10-01")]].map JsonValue.obj)) ∧
      buildRecords (.obj [("sites", JsonValue.arr
        [.obj [("date", .str "2025-09-18"), ("alternative_date", .str "2025-10-01")]])]) =
      some [siteRecord 1 (.str "Not Found") (.str "Not Found") (.str "Not Found")
              (.str "Not Found")
              [("date", .str "2025-09-18"), ("alternative_date", .str "2025-10-01")]]) ∧
    jlookup "Inv Date"
      ([siteRecord 1 (.str "Not Found") (.str "Not Found") (.str "Not Found")
          (.str "Not Found")
          [("date", JsonValue.str "2025-09-18"),
           ("alternative_date", JsonValue.str "2025-10-01")]].get ⟨0, by decide⟩) =
      some (.str "2025-10-01") :=
  ⟨⟨rfl, rfl⟩,
    ((C10_inv_date_cell
        [("sites", JsonValue.arr
          [.obj [("date", .str "2025-09-18"), ("alternative_date", .str "2025-10-01")]])]
        [[("date", JsonValue.str "2025-09-18"),
          ("alternative_date", JsonValue.str "2025-10-01")]]
        [siteRecord 1 (.str "Not Found") (.str "Not Found") (.str "Not Found")
           (.str "Not Found")
           [("date", .str "2025-09-18"), ("alternative_date", .str "2025-10-01")]]
        rfl rfl 0 (by decide) (by decide)).1
      (.str "2025-10-01") rfl (by decide) (by decide))⟩

theorem goodFields_lookup {f : List (String × JsonValue)} {k : String} {v : JsonValue}
    (hg : goodFields f = true) (hl : jlookup k f = some v) : goodVal v = true := by
  induction f with
  | nil => simp [jlookup] at hl
  | cons kv rest ih =>
    obtain ⟨k1, v1⟩ := kv
    rw [goodFields] at hg
    simp only [Bool.and_eq_true] at hg
    by_cases hk : k1 = k
    · rw [jlookup, List.find?_cons_of_pos _ (by simp [hk])] at hl
      have hv : v1 = v := by simpa using hl
      rw [← hv]
      exact hg.1
    · rw [jlookup, List.find?_cons_of_neg _ (by simp [hk])] at hl
      exact ih hg.2 hl

theorem goodArr_mem {xs : List JsonValue} {x : JsonValue}
    (hg : goodArr xs = true) (hx : x ∈ xs) : goodVal x = true := by
  induction xs with
  | nil => simp at hx
  | cons y rest ih =>
    rw [goodArr] at hg
    simp only [Bool.and_eq_true] at hg
    rcases List.mem_cons.mp hx with h | h
    · rw [h]; exact hg.1
    · exact ih hg.2 h

theorem goodVal_ne_null_empty {v : JsonValue} (hg : goodVal v = true) :
    v ≠ JsonValue.null ∧ v ≠ JsonValue.str "" := by
  constructor
  · intro h; rw [h, goodVal] at hg; exact Bool.noConfusion hg
  · intro h; rw [h, goodVal] at hg; simp at hg

theorem goodVal_cellOK {v : JsonValue} (hg : goodVal v = true) :
    cellOK v = true := by
  obtain ⟨h1, h2⟩ := goodVal_ne_null_empty hg
  simp [cellOK, h1, h2]

theorem deepGetGo_good {d : JsonValue} (hg : goodVal d = true) (ks : List String) :
    goodVal (deepGetGo d ks) = true ∨ deepGetGo d ks = .str "Not Found" := by
  induction ks generalizing d with
  | nil => exact Or.inl hg
  | cons k ks ih =>
    cases d with
    | obj f =>
      rw [deepGetGo]
      cases hl : jlookup k f with
      | none => exact Or.inr rfl
      | some v =>
        have hv : goodVal v = true := goodFields_lookup (by rw [goodVal] at hg; exact hg) hl
        exact ih hv
    | null => exact Or.inr rfl
    | bool b => exact Or.inr rfl
    | num n => exact Or.inr rfl
    | str s => exact Or.inr rfl
    | arr xs => exact Or.inr rfl

theorem deep_get_cellOK {d : JsonValue} (hg : goodVal d = true) (path : String) :
    cellOK (deep_get d path) = true := by
  rcases deepGetGo_good hg (splitDotsGo path.data []) with h | h
  · exact goodVal_cellOK h
  · rw [deep_get, h]; rfl

theorem mapM_loop_asObjFields_inv (ss : List JsonValue)
    (acc out : List (List (String × JsonValue)))
    (h : List.mapM.loop asObjFields ss acc = some out) :
    ∃ sfs, ss = sfs.map JsonValue.obj ∧ out = acc.reverse ++ sfs := by
  induction ss generalizing acc with
  | nil =>
    refine ⟨[], rfl, ?_⟩
    simp [List.mapM.loop] at h
    simp [← h]
  | cons s rest ih =>
    cases s with
    | obj sf =>
      simp only [List.mapM.loop, asObjFields, Option.bind_eq_bind, Option.some_bind] at h
      obtain ⟨sfs', hrest, hout⟩ := ih (sf :: acc) h
      refine ⟨sf :: sfs', by rw [hrest]; rfl, ?_⟩
      rw [hout]
      simp
    | null => simp [List.mapM.loop, asObjFields] at h
    | bool b => simp [List.mapM.loop, asObjFields] at h
    | num n => simp [List.mapM.loop, asObjFields] at h
    | str str => simp [List.mapM.loop, asObjFields] at h
    | arr xs => simp [List.mapM.loop, asObjFields] at h

theorem mapM_asObjFields_inv {ss : List JsonValue} {sfs : List (List (String × JsonValue))}
    (h : ss.mapM asObjFields = some sfs) : ss = sfs.map JsonValue.obj := by
  obtain ⟨sfs', h1, h2⟩ := mapM_loop_asObjFields_inv ss [] sfs h
  simp at h2
  rw [h1, h2]

theorem numberFrom_mem {p : Int × α} {i : Int} {l : List α}
    (h : p ∈ numberFrom i l) : p.2 ∈ l := by
  induction l generalizing i with
  | nil => simp [numberFrom] at h
  | cons x xs ih =>
    rw [numberFrom] at h
    rcases List.mem_cons.mp h with h | h
    · rw [h]; exact List.mem_cons_self x xs
    · exact List.mem_cons_of_mem x (ih h)

theorem buildRecords_obj_inv (pf : List (String × JsonValue))
    (recs : List (List (String × JsonValue)))
    (h : buildRecords (.obj pf) = some recs) :
    ∃ sfs, (jlookup "sites" pf).getD (.arr []) = .arr (sfs.map JsonValue.obj) ∧
      recs = (numberFrom 1 sfs).map (fun p =>
        siteRecord p.1 (deep_get (.obj pf) "billing_details.payable_to")
          (deep_get (.obj pf) "invoice.invoice_number")
          (deep_get (.obj pf) "invoice.amount")
          (deep_get (.obj pf) "computed_due_date") p.2) := by
  rw [buildRecords] at h
  split at h
  · rename_i ss hss
    split at h
    · rename_i sfs hsfs
      refine ⟨sfs, ?_, ?_⟩
      · rw [hss, mapM_asObjFields_inv hsfs]
      · exact (Option.some.inj h).symm
    · exact absurd h (by simp)
  · exact absurd h (by simp)

/-- The `Inv Date` cell is a good value or the sentinel whenever the site's
fields are good. -/
theorem siteInvDate_cellOK {sf : List (String × JsonValue)}
    (hg : goodFields sf = true) : cellOK (siteInvDate sf) = true := by
  rw [siteInvDate]
  cases halt : jlookup "alternative_date" sf with
  | none =>
    cases hd : jlookup "date" sf with
    | none => rfl
    | some d => exact goodVal_cellOK (goodFields_lookup hg hd)
  | some v =>
    by_cases hnf : v = JsonValue.str "Not Found"
    · subst hnf
      show cellOK ((jlookup "date" sf).getD (.str "Not Found")) = true
      cases hd : jlookup "date" sf with
      | none => rfl
      | some d => exact goodVal_cellOK (goodFields_lookup hg hd)
    · by_cases hnull : v = JsonValue.null
      · subst hnull
        show cellOK ((jlookup "date" sf).getD (.str "Not Found")) = true
        cases hd : jlookup "date" sf with
        | none => rfl
        | some d => exact goodVal_cellOK (goodFields_lookup hg hd)
      · show cellOK (if v = JsonValue.str "Not Found" || v = JsonValue.null then
            (jlookup "date" sf).getD (.str "Not Found") else v) = true
        rw [if_neg (by simp [hnf, hnull])]
        exact goodVal_cellOK (goodFields_lookup hg halt)

/-- Claim C8, counterexample: a payload with a site whose `address` is JSON
null produces a row whose `Address` cell is null — a present null is not
normalized to "Not Found", refuting the claim that every cell is non-empty
or exactly the sentinel. -/
theorem C8_counterexample :
    buildRecords (.obj [("sites", .arr [.obj [("address", JsonValue.null)]])]) =
      some [siteRecord 1 (.str "Not Found") (.str "Not Found") (.str "Not Found")
              (.str "Not Found") [("address", JsonValue.null)]] ∧
    jlookup "Address"
      (siteRecord 1 (.str "Not Found") (.str "Not Found") (.str "Not Found")
        (.str "Not Found") [("address", JsonValue.null)]) = some JsonValue.null ∧
    cellOK JsonValue.null = false :=
  ⟨rfl, rfl, rfl⟩

/-- Claim C8, amended: the custom-template construction defaults absent
keys to "Not Found", but performs no normalization of present values; so
provided every value in the parsed payload is non-null and non-empty (the
shape the prompt instructs the model to emit), every cell of every produced
row is either a non-empty value or exactly "Not Found".  Present null or
empty-string payload values pass through to cells unchanged. -/
theorem C8_cells_not_null (parsed : JsonValue)
    (recs : List (List (String × JsonValue)))
    (hgood : goodVal parsed = true)
    (hrecs : buildRecords parsed = some recs) :
    ∀ r ∈ recs, ∀ kv ∈ r, cellOK kv.2 = true := by
  cases parsed with
  | obj pf =>
    obtain ⟨sfs, hss, hrecs'⟩ := buildRecords_obj_inv pf recs hrecs
    have hpf : goodFields pf = true := by rw [goodVal] at hgood; exact hgood
    have hsfsgood : ∀ sf ∈ sfs, goodFields sf = true := by
      intro sf hsf
      cases hl : jlookup "sites" pf with
      | none =>
        rw [hl] at hss
        simp only [Option.getD_none] at hss
        have : sfs.map JsonValue.obj = [] := by
          have := JsonValue.arr.inj hss
          exact this.symm
        simp at this
        rw [this] at hsf
        simp at hsf
      | some sites =>
        rw [hl] at hss
        simp only [Option.getD_some] at hss
        have hgsites : goodVal sites = true := goodFields_lookup hpf hl
        rw [hss, goodVal] at hgsites
        have : goodVal (JsonValue.obj sf) = true :=
          goodArr_mem hgsites (List.mem_map_of_mem JsonValue.obj hsf)
        rw [goodVal] at this
        exact this
    subst hrecs'
    intro r hr kv hkv
    obtain ⟨p, hp, hr'⟩ := List.mem_map.mp hr
    have hsf : p.2 ∈ sfs := numberFrom_mem hp
    have hsfgood : goodFields p.2 = true := hsfsgood p.2 hsf
    rw [← hr'] at hkv
    rw [siteRecord] at hkv
    simp only [List.mem_cons, List.not_mem_nil, or_false] at hkv
    rcases hkv with h | h | h | h | h | h | h | h <;> rw [h]
    · rfl
    · exact deep_get_cellOK hgood "billing_details.payable_to"
    · cases hl : jlookup "address" p.2 with
      | none => rfl
      | some v => exact goodVal_cellOK (goodFields_lookup hsfgood hl)
    · exact deep_get_cellOK hgood "invoice.invoice_number"
    · rfl
    · exact siteInvDate_cellOK hsfgood
    · exact deep_get_cellOK hgood "computed_due_date"
    · exact deep_get_cellOK hgood "invoice.amount"
  | null =>
    exact Option.noConfusion
      (show (none : Option (List (List (String × JsonValue)))) = some recs from hrecs)
  | bool b =>
    exact Option.noConfusion
      (show (none : Option (List (List (String × JsonValue)))) = some recs from hrecs)
  | num n =>
    exact Option.noConfusion
      (show (none : Option (List (List (String × JsonValue)))) = some recs from hrecs)
  | str s =>
    exact Option.noConfusion
      (show (none : Option (List (List (String × JsonValue)))) = some recs from hrecs)
  | arr xs =>
    exact Option.noConfusion
      (show (none : Option (List (List (String × JsonValue)))) = some recs from hrecs)

/-- Witness for `C8_cells_not_null` on a concrete good payload. -/
theorem C8_cells_not_null_witness :
    (goodVal (.obj [("invoice", JsonValue.obj [("amount", .str "$1")]),
        ("sites", JsonValue.arr [.obj [("address", .str "A St")]])]) = true ∧
      buildRecords (.obj [("invoice", JsonValue.obj [("amount", .str "$1")]),
        ("sites", JsonValue.arr [.obj [("address", .str "A St")]])]) =
        some [siteRecord 1 (.str "Not Found") (.str "Not Found") (.str "$1")
                (.str "Not Found") [("address", .str "A St")]]) ∧
    (∀ r ∈ [siteRecord 1 (JsonValue.str "Not Found") (.str "Not Found") (.str "$1")
              (.str "Not Found") [("address", JsonValue.str "A St")]],
      ∀ kv ∈ r, cellOK kv.2 = true) :=
  ⟨⟨rfl, rfl⟩,
    C8_cells_not_null
      (.obj [("invoice", JsonValue.obj [("amount", .str "$1")]),
        ("sites", JsonValue.arr [.obj [("address", .str "A St")]])])
      [siteRecord 1 (.str "Not Found") (.str "Not Found") (.str "$1")
         (.str "Not Found") [("address", .str "A St")]]
      rfl rfl⟩

theorem objInsert_fresh (d : List (String × JsonValue)) (k : String) (v : JsonValue)
    (h : d.any (fun kv => kv.1 = k) = false) :
    Json.objInsert d k v = d ++ [(k, v)] := by
  rw [Json.objInsert, if_neg (by rw [h]; exact Bool.false_ne_true)]

theorem pyUpdate_append (d l : List (String × JsonValue))
    (hl : (l.map (fun kv => kv.1)).Nodup)
    (hdisj : ∀ kv ∈ l, d.any (fun x => x.1 = kv.1) = false) :
    pyUpdate d l = d ++ l := by
  induction l generalizing d with
  | nil => simp [pyUpdate]
  | cons kv rest ih =>
    have hstep : Json.objInsert d kv.1 kv.2 = d ++ [kv] := by
      rw [objInsert_fresh d kv.1 kv.2 (hdisj kv (List.mem_cons_self kv rest))]
    have hrestkeys : (rest.map (fun kv => kv.1)).Nodup := by
      simp only [List.map_cons, List.nodup_cons] at hl
      exact hl.2
    have hknotin : kv.1 ∉ rest.map (fun kv => kv.1) := by
      simp only [List.map_cons, List.nodup_cons] at hl
      exact hl.1
    have hdisj' : ∀ kv' ∈ rest, (d ++ [kv]).any (fun x => x.1 = kv'.1) = false := by
      intro kv' hkv'
      rw [List.any_append]
      have h1 : d.any (fun x => x.1 = kv'.1) = false :=
        hdisj kv' (List.mem_cons_of_mem kv hkv')
      have h2 : [kv].any (fun x => x.1 = kv'.1) = false := by
        simp only [List.any_cons, List.any_nil, Bool.or_false]
        by_contra hc
        rw [Bool.not_eq_false, decide_eq_true_eq] at hc
        exact hknotin (hc ▸ List.mem_map_of_mem (fun kv => kv.1) hkv')
      rw [h1, h2]
      rfl
    have : pyUpdate d (kv :: rest) = pyUpdate (d ++ [kv]) rest := by
      rw [pyUpdate, List.foldl_cons]
      rw [show Json.objInsert d kv.1 kv.2 = d ++ [kv] from hstep]
      rfl
    rw [this, ih (d ++ [kv]) hrestkeys hdisj']
    simp

theorem summaryPairsOf_cons (kv : String × JsonValue)
    (rest : List (String × JsonValue)) :
    summaryPairsOf (kv :: rest) =
      (match kv.2 with
       | .arr xs => if xs.all isObjVal then [] else [(kv.1, .arr xs)]
       | .obj f2 => flatten_dict f2 kv.1
       | v => [(kv.1, v)]) ++ summaryPairsOf rest := by
  rw [summaryPairsOf, summaryPairsOf, List.map_cons, List.flatten_cons]

theorem itemsOf_cons (kv : String × JsonValue) (rest : List (String × JsonValue)) :
    itemsOf (kv :: rest) =
      (match kv.2 with
       | .arr xs => if xs.all isObjVal then xs.map fieldsOfObj else []
       | _ => []) ++ itemsOf rest := by
  rw [itemsOf, itemsOf, List.map_cons, List.flatten_cons]

theorem any_key_false {d : List (String × JsonValue)} {k : String}
    (h : k ∉ d.map (fun kv => kv.1)) : (d.any (fun kv => kv.1 = k)) = false := by
  by_contra hc
  rw [Bool.not_eq_false, List.any_eq_true] at hc
  obtain ⟨x, hx, hxk⟩ := hc
  rw [decide_eq_true_eq] at hxk
  exact h (hxk ▸ List.mem_map_of_mem (fun kv => kv.1) hx)

theorem summaryKeys_cons (kv : String × JsonValue) (rest : List (String × JsonValue)) :
    summaryKeys (kv :: rest) =
      ((match kv.2 with
        | JsonValue.arr xs =>
          if xs.all isObjVal then [] else [(kv.1, JsonValue.arr xs)]
        | JsonValue.obj f2 => flatten_dict f2 kv.1
        | v => [(kv.1, v)]) :
        List (String × JsonValue)).map (fun kv => kv.1) ++ summaryKeys rest := by
  rw [summaryKeys, summaryPairsOf_cons, List.map_append]
  rfl

theorem sep_fold (parsed : List (String × JsonValue))
    (flat : List (String × JsonValue)) (items : List (List (String × JsonValue)))
    (h : ((flat.map (fun kv => kv.1)) ++ summaryKeys parsed).Nodup) :
    parsed.foldl sepStep (flat, items) =
      (flat ++ summaryPairsOf parsed, items ++ itemsOf parsed) := by
  induction parsed generalizing flat items with
  | nil => simp [summaryPairsOf, itemsOf]
  | cons kv rest ih =>
    obtain ⟨k, v⟩ := kv
    rw [List.foldl_cons]
    cases v with
    | arr xs =>
      by_cases hall : (xs.all isObjVal) = true
      · have hstep : sepStep (flat, items) (k, JsonValue.arr xs) =
            (flat, items ++ xs.map fieldsOfObj) := by
          rw [sepStep]
          simp only [hall, if_true]
        have hsp : summaryPairsOf ((k, JsonValue.arr xs) :: rest) =
            summaryPairsOf rest := by
          rw [summaryPairsOf_cons]
          simp [hall]
        have hit : itemsOf ((k, JsonValue.arr xs) :: rest) =
            xs.map fieldsOfObj ++ itemsOf rest := by
          rw [itemsOf_cons]
          simp [hall]
        have hsk : summaryKeys ((k, JsonValue.arr xs) :: rest) =
            summaryKeys rest := by
          rw [summaryKeys_cons]
          simp [hall]
        rw [hstep, hsp, hit]
        rw [hsk] at h
        rw [ih flat (items ++ xs.map fieldsOfObj) h]
        simp
      · have hstep : sepStep (flat, items) (k, JsonValue.arr xs) =
            (Json.objInsert flat k (JsonValue.arr xs), items) := by
          rw [sepStep]
          simp only [hall]
          simp
        have hsp : summaryPairsOf ((k, JsonValue.arr xs) :: rest) =
            (k, JsonValue.arr xs) :: summaryPairsOf rest := by
          rw [summaryPairsOf_cons]
          simp [hall]
        have hit : itemsOf ((k, JsonValue.arr xs) :: rest) = itemsOf rest := by
          rw [itemsOf_cons]
          simp [hall]
        have hsk : summaryKeys ((k, JsonValue.arr xs) :: rest) =
            k :: summaryKeys rest := by
          rw [summaryKeys_cons]
          simp [hall]
        rw [hstep, hsp, hit]
        rw [hsk] at h
        have hfresh : flat.any (fun kv => kv.1 = k) = false := by
          apply any_key_false
          rw [List.nodup_append] at h
          intro hmem
          exact h.2.2 hmem (List.mem_cons_self _ _)
        rw [objInsert_fresh flat k (JsonValue.arr xs) hfresh]
        have h' : ((flat ++ [(k, JsonValue.arr xs)]).map (fun kv => kv.1) ++
            summaryKeys rest).Nodup := by
          simp only [List.map_append, List.map_cons, List.map_nil, List.append_assoc,
            List.singleton_append]
          simpa using h
        rw [ih (flat ++ [(k, JsonValue.arr xs)]) items h']
        simp
    | obj f2 =>
      have hstep : sepStep (flat, items) (k, JsonValue.obj f2) =
          (pyUpdate flat (flatten_dict f2 k), items) := rfl
      have hsp : summaryPairsOf ((k, JsonValue.obj f2) :: rest) =
          flatten_dict f2 k ++ summaryPairsOf rest := by rw [summaryPairsOf_cons]; try rfl
      have hit : itemsOf ((k, JsonValue.obj f2) :: rest) = itemsOf rest := by
        rw [itemsOf_cons]; try rfl
      have hsk : summaryKeys ((k, JsonValue.obj f2) :: rest) =
          (flatten_dict f2 k).map (fun kv => kv.1) ++ summaryKeys rest := by
        rw [summaryKeys_cons]
      rw [hstep, hsp, hit]
      rw [hsk] at h
      have hsplit : ((flat.map (fun kv => kv.1)).Nodup ∧
          ((flatten_dict f2 k).map (fun kv => kv.1) ++ summaryKeys rest).Nodup ∧
          (flat.map (fun kv => kv.1)).Disjoint
            ((flatten_dict f2 k).map (fun kv => kv.1) ++ summaryKeys rest)) := by
        rw [← List.nodup_append]
        exact h
      have hflkeys : ((flatten_dict f2 k).map (fun kv => kv.1)).Nodup := by
        have h2 := hsplit.2.1
        rw [List.nodup_append] at h2
        exact h2.1
      have hdisj : ∀ kv' ∈ flatten_dict f2 k,
          flat.any (fun x => x.1 = kv'.1) = false := by
        intro kv' hkv'
        apply any_key_false
        intro hmem
        exact hsplit.2.2 hmem
          (List.mem_append_left _ (List.mem_map_of_mem (fun kv => kv.1) hkv'))
      rw [pyUpdate_append flat (flatten_dict f2 k) hflkeys hdisj]
      have h' : ((flat ++ flatten_dict f2 k).map (fun kv => kv.1) ++
          summaryKeys rest).Nodup := by
        simp only [List.map_append, List.append_assoc]
        simpa [List.append_assoc] using h
      rw [ih (flat ++ flatten_dict f2 k) items h']
      simp
    | null =>
      have hstep : sepStep (flat, items) (k, JsonValue.null) =
          (Json.objInsert flat k (JsonValue.null), items) := rfl
      have hsp : summaryPairsOf ((k, JsonValue.null) :: rest) =
          (k, JsonValue.null) :: summaryPairsOf rest := by rw [summaryPairsOf_cons]; try rfl
      have hit : itemsOf ((k, JsonValue.null) :: rest) = itemsOf rest := by
        rw [itemsOf_cons]; try rfl
      have hsk : summaryKeys ((k, JsonValue.null) :: rest) =
          k :: summaryKeys rest := by rw [summaryKeys_cons]; try rfl
      rw [hstep, hsp, hit]
      rw [hsk] at h
      have hfresh : flat.any (fun kv => kv.1 = k) = false := by
        apply any_key_false
        rw [List.nodup_append] at h
        intro hmem
        exact h.2.2 hmem (List.mem_cons_self _ _)
      rw [objInsert_fresh flat k (JsonValue.null) hfresh]
      have h' : ((flat ++ [(k, JsonValue.null)]).map (fun kv => kv.1) ++
          summaryKeys rest).Nodup := by
        simp only [List.map_append, List.map_cons, List.map_nil, List.append_assoc,
          List.singleton_append]
        simpa using h
      rw [ih (flat ++ [(k, JsonValue.null)]) items h']
      simp
    | bool b =>
      have hstep : sepStep (flat, items) (k, JsonValue.bool b) =
          (Json.objInsert flat k (JsonValue.bool b), items) := rfl
      have hsp : summaryPairsOf ((k, JsonValue.bool b) :: rest) =
          (k, JsonValue.bool b) :: summaryPairsOf rest := by rw [summaryPairsOf_cons]; try rfl
      have hit : itemsOf ((k, JsonValue.bool b) :: rest) = itemsOf rest := by
        rw [itemsOf_cons]; try rfl
      have hsk : summaryKeys ((k, JsonValue.bool b) :: rest) =
          k :: summaryKeys rest := by rw [summaryKeys_cons]; try rfl
      rw [hstep, hsp, hit]
      rw [hsk] at h
      have hfresh : flat.any (fun kv => kv.1 = k) = false := by
        apply any_key_false
        rw [List.nodup_append] at h
        intro hmem
        exact h.2.2 hmem (List.mem_cons_self _ _)
      rw [objInsert_fresh flat k (JsonValue.bool b) hfresh]
      have h' : ((flat ++ [(k, JsonValue.bool b)]).map (fun kv => kv.1) ++
          summaryKeys rest).Nodup := by
        simp only [List.map_append, List.map_cons, List.map_nil, List.append_assoc,
          List.singleton_append]
        simpa using h
      rw [ih (flat ++ [(k, JsonValue.bool b)]) items h']
      simp
    | num n =>
      have hstep : sepStep (flat, items) (k, JsonValue.num n) =
          (Json.objInsert flat k (JsonValue.num n), items) := rfl
      have hsp : summaryPairsOf ((k, JsonValue.num n) :: rest) =
          (k, JsonValue.num n) :: summaryPairsOf rest := by rw [summaryPairsOf_cons]; try rfl
      have hit : itemsOf ((k, JsonValue.num n) :: rest) = itemsOf rest := by
        rw [itemsOf_cons]; try rfl
      have hsk : summaryKeys ((k, JsonValue.num n) :: rest) =
          k :: summaryKeys rest := by rw [summaryKeys_cons]; try rfl
      rw [hstep, hsp, hit]
      rw [hsk] at h
      have hfresh : flat.any (fun kv => kv.1 = k) = false := by
        apply any_key_false
        rw [List.nodup_append] at h
        intro hmem
        exact h.2.2 hmem (List.mem_cons_self _ _)
      rw [objInsert_fresh flat k (JsonValue.num n) hfresh]
      have h' : ((flat ++ [(k, JsonValue.num n)]).map (fun kv => kv.1) ++
          summaryKeys rest).Nodup := by
        simp only [List.map_append, List.map_cons, List.map_nil, List.append_assoc,
          List.singleton_append]
        simpa using h
      rw [ih (flat ++ [(k, JsonValue.num n)]) items h']
      simp
    | str sv =>
      have hstep : sepStep (flat, items) (k, JsonValue.str sv) =
          (Json.objInsert flat k (JsonValue.str sv), items) := rfl
      have hsp : summaryPairsOf ((k, JsonValue.str sv) :: rest) =
          (k, JsonValue.str sv) :: summaryPairsOf rest := by rw [summaryPairsOf_cons]; try rfl
      have hit : itemsOf ((k, JsonValue.str sv) :: rest) = itemsOf rest := by
        rw [itemsOf_cons]; try rfl
      have hsk : summaryKeys ((k, JsonValue.str sv) :: rest) =
          k :: summaryKeys rest := by rw [summaryKeys_cons]; try rfl
      rw [hstep, hsp, hit]
      rw [hsk] at h
      have hfresh : flat.any (fun kv => kv.1 = k) = false := by
        apply any_key_false
        rw [List.nodup_append] at h
        intro hmem
        exact h.2.2 hmem (List.mem_cons_self _ _)
      rw [objInsert_fresh flat k (JsonValue.str sv) hfresh]
      have h' : ((flat ++ [(k, JsonValue.str sv)]).map (fun kv => kv.1) ++
          summaryKeys rest).Nodup := by
        simp only [List.map_append, List.map_cons, List.map_nil, List.append_assoc,
          List.singleton_append]
        simpa using h
      rw [ih (flat ++ [(k, JsonValue.str sv)]) items h']
      simp

/-- The summary/items split under distinct keys: the summary is exactly the
concatenated per-field contributions and the items table exactly the
concatenated list-of-mappings rows. -/
theorem separate_eq_of_nodup (parsed : List (String × JsonValue))
    (h : (summaryKeys parsed).Nodup) :
    separate_summary_and_items parsed = (summaryPairsOf parsed, itemsOf parsed) := by
  rw [separate_summary_and_items]
  have := sep_fold parsed [] [] (by simpa using h)
  simpa using this

/-- Claim C6, counterexample: in the payload
`{"a": {"b": 1}, "a_b": 2}` the flattened pair `("a_b", 1)` of the nested
field `a` collides with the scalar field `a_b` and is overwritten — the
nested field's data is lost from the summary, refuting the claim's
"losing no top-level field". -/
theorem C6_counterexample :
    ¬ claimC6Holds [("a", .obj [("b", .num 1)]), ("a_b", .num 2)] := by
  decide

/-- Claim C6, amended: provided the summary keys the payload produces
(flattened parent-child keys and scalar keys) are pairwise distinct, the
split puts the concatenation of every top-level list-of-mappings field into
the items table, every flattened pair of every nested-mapping field into
the summary, and every scalar field into the summary under its own key —
no top-level field is lost.  When keys collide, a later field overwrites
the earlier value (data loss), as the counterexample shows. -/
theorem C6_split_faithful (parsed : List (String × JsonValue))
    (h : (summaryKeys parsed).Nodup) : claimC6Holds parsed := by
  have hsep := separate_eq_of_nodup parsed h
  constructor
  · rw [hsep]
  · intro kv hkv
    obtain ⟨k, v⟩ := kv
    constructor
    · intro hobj pr hpr
      rw [hsep]
      cases hv : v with
      | obj f2 =>
        show pr ∈ summaryPairsOf parsed
        rw [summaryPairsOf]
        apply List.mem_flatten.mpr
        refine ⟨flatten_dict f2 k, ?_, ?_⟩
        · have := List.mem_map_of_mem (fun kv : String × JsonValue =>
            (match kv.2 with
             | JsonValue.arr xs =>
               if xs.all isObjVal then [] else [(kv.1, JsonValue.arr xs)]
             | JsonValue.obj f2 => flatten_dict f2 kv.1
             | v => [(kv.1, v)] : List (String × JsonValue))) (hv ▸ hkv)
          simpa using this
        · rw [hv] at hpr
          simpa [fieldsOfObj] using hpr
      | null => rw [hv] at hobj; exact absurd hobj (by simp [isObjVal])
      | bool b => rw [hv] at hobj; exact absurd hobj (by simp [isObjVal])
      | num n => rw [hv] at hobj; exact absurd hobj (by simp [isObjVal])
      | str sv => rw [hv] at hobj; exact absurd hobj (by simp [isObjVal])
      | arr xs => rw [hv] at hobj; exact absurd hobj (by simp [isObjVal])
    · intro hscalar
      rw [hsep]
      show (k, v) ∈ summaryPairsOf parsed
      rw [summaryPairsOf]
      apply List.mem_flatten.mpr
      cases v with
      | arr xs => exact absurd hscalar (by simp [isScalar])
      | obj f2 => exact absurd hscalar (by simp [isScalar])
      | null =>
        refine ⟨[(k, JsonValue.null)], ?_, by simp⟩
        have := List.mem_map_of_mem (fun kv : String × JsonValue =>
            (match kv.2 with
             | JsonValue.arr xs =>
               if xs.all isObjVal then [] else [(kv.1, JsonValue.arr xs)]
             | JsonValue.obj f2 => flatten_dict f2 kv.1
             | v => [(kv.1, v)] : List (String × JsonValue))) hkv
        simpa using this
      | bool b =>
        refine ⟨[(k, JsonValue.bool b)], ?_, by simp⟩
        have := List.mem_map_of_mem (fun kv : String × JsonValue =>
            (match kv.2 with
             | JsonValue.arr xs =>
               if xs.all isObjVal then [] else [(kv.1, JsonValue.arr xs)]
             | JsonValue.obj f2 => flatten_dict f2 kv.1
             | v => [(kv.1, v)] : List (String × JsonValue))) hkv
        simpa using this
      | num n =>
        refine ⟨[(k, JsonValue.num n)], ?_, by simp⟩
        have := List.mem_map_of_mem (fun kv : String × JsonValue =>
            (match kv.2 with
             | JsonValue.arr xs =>
               if xs.all isObjVal then [] else [(kv.1, JsonValue.arr xs)]
             | JsonValue.obj f2 => flatten_dict f2 kv.1
             | v => [(kv.1, v)] : List (String × JsonValue))) hkv
        simpa using this
      | str sv =>
        refine ⟨[(k, JsonValue.str sv)], ?_, by simp⟩
        have := List.mem_map_of_mem (fun kv : String × JsonValue =>
            (match kv.2 with
             | JsonValue.arr xs =>
               if xs.all isObjVal then [] else [(kv.1, JsonValue.arr xs)]
             | JsonValue.obj f2 => flatten_dict f2 kv.1
             | v => [(kv.1, v)] : List (String × JsonValue))) hkv
        simpa using this

/-- Witness for `C6_split_faithful` on a collision-free payload. -/
theorem C6_split_faithful_witness :
    (summaryKeys [("invoice", JsonValue.obj [("amount", .str "$1")]),
        ("total", JsonValue.str "5"),
        ("items", JsonValue.arr [.obj [("x", .num 1)]])]).Nodup ∧
    claimC6Holds [("invoice", JsonValue.obj [("amount", .str "$1")]),
        ("total", JsonValue.str "5"),
        ("items", JsonValue.arr [.obj [("x", .num 1)]])] :=
  ⟨by decide,
    C6_split_faithful
      [("invoice", JsonValue.obj [("amount", .str "$1")]),
        ("total", JsonValue.str "5"),
        ("items", JsonValue.arr [.obj [("x", .num 1)]])]
      (by decide)⟩

namespace Reconciler

theorem dedupFSGo_congr (l : List String) (seen1 seen2 : List String)
    (h : ∀ x, x ∈ seen1 ↔ x ∈ seen2) :
    dedupFSGo seen1 l = dedupFSGo seen2 l := by
  induction l generalizing seen1 seen2 with
  | nil => rfl
  | cons c rest ih =>
    rw [dedupFSGo, dedupFSGo]
    by_cases hc : c ∈ seen1
    · rw [if_pos (by rw [List.elem_iff]; exact hc),
        if_pos (by rw [List.elem_iff]; exact (h c).mp hc)]
      exact ih seen1 seen2 h
    · rw [if_neg (by rw [List.elem_iff]; exact hc),
        if_neg (by rw [List.elem_iff]; exact fun hx => hc ((h c).mpr hx))]
      rw [ih (seen1 ++ [c]) (seen2 ++ [c]) (by intro x; simp [h x])]

theorem dedupFSGo_append (xs : List String) (seen ys : List String) :
    dedupFSGo seen (xs ++ ys) =
      dedupFSGo seen xs ++ dedupFSGo (xs ++ seen) ys := by
  induction xs generalizing seen with
  | nil => simp [dedupFSGo]
  | cons c rest ih =>
    rw [List.cons_append, dedupFSGo, dedupFSGo]
    by_cases hc : c ∈ seen
    · rw [if_pos (by rw [List.elem_iff]; exact hc),
        if_pos (by rw [List.elem_iff]; exact hc)]
      rw [ih seen]
      congr 1
      apply dedupFSGo_congr
      intro x
      constructor
      · intro hx
        rcases List.mem_append.mp hx with h | h
        · exact List.mem_append_left _ (List.mem_cons_of_mem c h)
        · exact List.mem_append_right _ h
      · intro hx
        rcases List.mem_append.mp hx with h | h
        · rcases List.mem_cons.mp h with h | h
          · exact List.mem_append_right _ (h ▸ hc)
          · exact List.mem_append_left _ h
        · exact List.mem_append_right _ h
    · rw [if_neg (by rw [List.elem_iff]; exact hc),
        if_neg (by rw [List.elem_iff]; exact hc)]
      rw [ih (seen ++ [c])]
      rw [List.cons_append]
      congr 1
      congr 1
      apply dedupFSGo_congr
      intro x
      constructor
      · intro hx
        rcases List.mem_append.mp hx with h | h
        · exact List.mem_append_left _ (List.mem_cons_of_mem c h)
        · rcases List.mem_append.mp h with h | h
          · exact List.mem_append_right _ h
          · exact List.mem_append_left _
              (List.mem_cons.mpr (Or.inl (List.mem_singleton.mp h)))
      · intro hx
        rcases List.mem_append.mp hx with h | h
        · rcases List.mem_cons.mp h with h | h
          · exact List.mem_append_right _ (List.mem_append_right _ (by simp [h]))
          · exact List.mem_append_left _ h
        · exact List.mem_append_right _ (List.mem_append_left _ h)

theorem dedupFSGo_eq_nil (ys seen : List String) (h : ∀ y ∈ ys, y ∈ seen) :
    dedupFSGo seen ys = [] := by
  induction ys with
  | nil => rfl
  | cons c rest ih =>
    rw [dedupFSGo,
      if_pos (by rw [List.elem_iff]; exact h c (List.mem_cons_self _ _))]
    exact ih (fun y hy => h y (List.mem_cons_of_mem c hy))

theorem dedupFSGo_eq_self (l seen : List String) (hnodup : l.Nodup)
    (hdisj : ∀ x ∈ l, x ∉ seen) : dedupFSGo seen l = l := by
  induction l generalizing seen with
  | nil => rfl
  | cons c rest ih =>
    rw [dedupFSGo,
      if_neg (by rw [List.elem_iff]; exact hdisj c (List.mem_cons_self _ _))]
    rw [List.nodup_cons] at hnodup
    rw [ih (seen ++ [c]) hnodup.2]
    intro x hx
    simp only [List.mem_append, List.mem_singleton]
    rintro (h | h)
    · exact hdisj x (List.mem_cons_of_mem c hx) h
    · exact hnodup.1 (h ▸ hx)

theorem mem_dedupFSGo {x : String} (l seen : List String) :
    x ∈ dedupFSGo seen l ↔ x ∈ l ∧ x ∉ seen := by
  induction l generalizing seen with
  | nil => simp [dedupFSGo]
  | cons c rest ih =>
    rw [dedupFSGo]
    by_cases hc : c ∈ seen
    · rw [if_pos (by rw [List.elem_iff]; exact hc), ih]
      constructor
      · rintro ⟨h1, h2⟩
        exact ⟨List.mem_cons_of_mem c h1, h2⟩
      · rintro ⟨h1, h2⟩
        rcases List.mem_cons.mp h1 with h | h
        · exact absurd (h ▸ hc) h2
        · exact ⟨h, h2⟩
    · rw [if_neg (by rw [List.elem_iff]; exact hc)]
      rw [List.mem_cons, ih]
      constructor
      · rintro (h | ⟨h1, h2⟩)
        · exact ⟨List.mem_cons.mpr (Or.inl h), h ▸ hc⟩
        · simp only [List.mem_append, List.mem_singleton] at h2
          push_neg at h2
          exact ⟨List.mem_cons_of_mem c h1, h2.1⟩
      · rintro ⟨h1, h2⟩
        rcases List.mem_cons.mp h1 with h | h
        · exact Or.inl h
        · by_cases hxc : x = c
          · exact Or.inl hxc
          · exact Or.inr ⟨h, by simp [h2, hxc]⟩

theorem dedupFSGo_nodup (l seen : List String) : (dedupFSGo seen l).Nodup := by
  induction l generalizing seen with
  | nil => exact List.nodup_nil
  | cons c rest ih =>
    rw [dedupFSGo]
    by_cases hc : c ∈ seen
    · rw [if_pos (by rw [List.elem_iff]; exact hc)]
      exact ih seen
    · rw [if_neg (by rw [List.elem_iff]; exact hc)]
      rw [List.nodup_cons]
      refine ⟨?_, ih (seen ++ [c])⟩
      rw [mem_dedupFSGo]
      rintro ⟨_, h2⟩
      exact h2 (by simp)

theorem mem_dedupFS {x : String} {l : List String} : x ∈ dedupFS l ↔ x ∈ l := by
  rw [dedupFS, mem_dedupFSGo]
  simp

theorem dedupFS_nodup (l : List String) : (dedupFS l).Nodup :=
  dedupFSGo_nodup l []

theorem dedupFS_eq_self {l : List String} (h : l.Nodup) : dedupFS l = l :=
  dedupFSGo_eq_self l [] h (by simp)

end Reconciler

namespace Reconciler

theorem fillRequired_id (req : List String) (r : List (String × JsonValue))
    (h : ∀ c ∈ req, r.any (fun kv => kv.1 = c) = true) :
    fillRequired req r = r := by
  rw [fillRequired]
  have : req.filter (fun c => !(r.any (fun kv => kv.1 = c))) = [] := by
    rw [List.filter_eq_nil_iff]
    intro c hc
    rw [h c hc]
    simp
  rw [this]
  simp

theorem filter_key_singleton (cols : List String) (g : String → JsonValue)
    (c : String) (hnodup : cols.Nodup) (hc : c ∈ cols) :
    (cols.map (fun c' => (c', g c'))).filter (fun kv => kv.1 = c) = [(c, g c)] := by
  induction cols with
  | nil => simp at hc
  | cons d rest ih =>
    rw [List.nodup_cons] at hnodup
    rw [List.map_cons, List.filter_cons]
    rcases List.mem_cons.mp hc with h | h
    · subst h
      rw [if_pos (by simp)]
      have : (rest.map (fun c' => (c', g c'))).filter (fun kv => kv.1 = c) = [] := by
        rw [List.filter_eq_nil_iff]
        intro kv hkv
        obtain ⟨c', hc', hkv'⟩ := List.mem_map.mp hkv
        rw [← hkv']
        simp only [decide_eq_true_eq]
        intro heq
        exact hnodup.1 (heq ▸ hc')
      rw [this]
    · have hdc : ¬(d = c) := fun heq => hnodup.1 (heq ▸ h)
      rw [if_neg (by simpa using hdc)]
      exact ih hnodup.2 h

theorem variantVal_map_zero (cols : List String) (g : String → JsonValue)
    (c : String) (hnodup : cols.Nodup) (hc : c ∈ cols) :
    variantVal (cols.map (fun c' => (c', g c'))) c 0 = g c := by
  rw [variantVal, filter_key_singleton cols g c hnodup hc]
  rfl

theorem countIn_map_one (cols : List String) (g : String → JsonValue)
    (c : String) (hnodup : cols.Nodup) (hc : c ∈ cols) :
    countIn (cols.map (fun c' => (c', g c'))) c = 1 := by
  rw [countIn, filter_key_singleton cols g c hnodup hc]
  rfl

theorem foldl_max_ones (c : String) (rows : List (List (String × JsonValue)))
    (a : Nat) (h : ∀ r ∈ rows, countIn r c = 1) (hne : rows ≠ []) :
    rows.foldl (fun m r => max m (countIn r c)) a = max a 1 := by
  induction rows generalizing a with
  | nil => exact absurd rfl hne
  | cons r rest ih =>
    rw [List.foldl_cons, h r (List.mem_cons_self _ _)]
    cases hrest : rest with
    | nil => simp
    | cons r2 rs =>
      rw [← hrest, ih (max a 1)
        (fun r' hr' => h r' (List.mem_cons_of_mem r hr')) (by simp [hrest])]
      omega

theorem numVariants_ones (c : String) (rows : List (List (String × JsonValue)))
    (h : ∀ r ∈ rows, countIn r c = 1) (hne : rows ≠ []) :
    numVariants rows c = 1 := by
  rw [numVariants, foldl_max_ones c rows 0 h hne]
  omega

theorem bestVariant_of_one (c : String) (rows : List (List (String × JsonValue)))
    (h : numVariants rows c = 1) : bestVariant rows c = 0 := by
  rw [bestVariant, h, show List.range 1 = [0] from rfl, List.foldl_cons,
    List.foldl_nil]
  simp

end Reconciler

namespace Reconciler

theorem filter_not_contains_nil (req l : List String) (h : ∀ c ∈ l, c ∈ req) :
    l.filter (fun c => !req.contains c) = [] := by
  rw [List.filter_eq_nil_iff]
  intro c hc
  have : req.contains c = true := by rw [List.elem_iff]; exact h c hc
  rw [this]
  simp

theorem reconcileCols_nodup (rows1 : List (List (String × JsonValue)))
    (req : List String) : (reconcileCols rows1 req).Nodup := by
  rw [reconcileCols, List.nodup_append]
  refine ⟨dedupFS_nodup req, (dedupFS_nodup _).filter _, ?_⟩
  intro a ha hafil
  have ha' : a ∈ req := mem_dedupFS.mp ha
  have := List.of_mem_filter hafil
  rw [Bool.not_eq_eq_eq_not] at this
  simp only [Bool.not_true] at this
  have ha2 : List.elem a req = true := List.elem_iff.mpr ha'
  rw [show req.contains a = List.elem a req from rfl, ha2] at this
  exact Bool.noConfusion this

theorem mem_reconcileCols_of_req (rows1 : List (List (String × JsonValue)))
    (req : List String) (c : String) (hc : c ∈ req) :
    c ∈ reconcileCols rows1 req := by
  rw [reconcileCols]
  exact List.mem_append_left _ (mem_dedupFS.mpr hc)

theorem reconcileCols_eq (rows1 : List (List (String × JsonValue)))
    (req : List String) :
    dedupFS req ++ (reconcileCols rows1 req).filter (fun c => !req.contains c) =
      reconcileCols rows1 req := by
  rw [reconcileCols, List.filter_append]
  rw [filter_not_contains_nil req (dedupFS req) (fun c hc => mem_dedupFS.mp hc)]
  rw [List.nil_append, List.filter_filter]
  congr 1
  apply List.filter_congr
  intro c hc
  simp

end Reconciler

namespace Reconciler

/-- A table whose rows all share the nodup column list `F`, with `F` of the
canonical required-then-extras shape, is a fixed point of `reconcile`. -/
theorem reconcile_of_uniform (out : List (List (String × JsonValue)))
    (req : List String) (F : List String)
    (hne : out ≠ [])
    (hFnodup : F.Nodup)
    (hreqF : ∀ c ∈ req, c ∈ F)
    (hFsplit : dedupFS req ++ F.filter (fun c => !req.contains c) = F)
    (hshape : ∀ r' ∈ out, ∃ g : String → JsonValue,
      r' = F.map (fun c => (c, g c))) :
    reconcile out req = out := by
  have hfillrow : ∀ r' ∈ out, fillRequired req r' = r' := by
    intro r' hr'
    obtain ⟨g, hg⟩ := hshape r' hr'
    apply fillRequired_id
    intro c hc
    rw [List.any_eq_true]
    refine ⟨(c, g c), ?_, by simp⟩
    rw [hg]
    exact List.mem_map_of_mem _ (hreqF c hc)
  have hfill : out.map (fillRequired req) = out := by
    calc out.map (fillRequired req) = out.map id := List.map_congr_left hfillrow
    _ = out := List.map_id out
  have hkeys : ∀ r' ∈ out, r'.map (fun kv => kv.1) = F := by
    intro r' hr'
    obtain ⟨g, hg⟩ := hshape r' hr'
    rw [hg, List.map_map]
    exact List.map_id F
  have hcols : reconcileCols out req = F := by
    cases hout : out with
    | nil => exact absurd hout hne
    | cons o os =>
      rw [← hout, reconcileCols]
      have hmapkeys : out.map (fun r => r.map (fun kv => kv.1)) =
          out.map (fun _ => F) := List.map_congr_left hkeys
      have hsub : ∀ y ∈ (List.map (fun _ => F) os).flatten, y ∈ F ++ [] := by
        intro y hy
        rw [List.append_nil]
        obtain ⟨l, hl, hyl⟩ := List.mem_flatten.mp hy
        obtain ⟨_, _, hlF⟩ := List.mem_map.mp hl
        exact hlF ▸ hyl
      have hd : dedupFS (F ++ (List.map (fun _ => F) os).flatten) = F := by
        rw [dedupFS, dedupFSGo_append F [] _, dedupFSGo_eq_nil _ _ hsub,
          List.append_nil]
        exact dedupFS_eq_self hFnodup
      rw [hmapkeys, hout, List.map_cons, List.flatten_cons, hd]
      exact hFsplit
  have hcount : ∀ c ∈ F, ∀ r' ∈ out, countIn r' c = 1 := by
    intro c hc r' hr'
    obtain ⟨g, hg⟩ := hshape r' hr'
    rw [hg]
    exact countIn_map_one F g c hFnodup hc
  have hbest : ∀ c ∈ F, bestVariant out c = 0 := by
    intro c hc
    exact bestVariant_of_one c out
      (numVariants_ones c out (fun r' hr' => hcount c hc r' hr') hne)
  have hrowid : ∀ r' ∈ out,
      F.map (fun c => (c, variantVal r' c (bestVariant out c))) = r' := by
    intro r' hr'
    obtain ⟨g, hg⟩ := hshape r' hr'
    have : ∀ c ∈ F, (c, variantVal r' c (bestVariant out c)) = (c, g c) := by
      intro c hc
      rw [hbest c hc, hg, variantVal_map_zero F g c hFnodup hc]
    calc F.map (fun c => (c, variantVal r' c (bestVariant out c)))
        = F.map (fun c => (c, g c)) := List.map_congr_left this
    _ = r' := hg.symm
  show (out.map (fillRequired req)).map (fun r =>
      (reconcileCols (out.map (fillRequired req)) req).map (fun c =>
        (c, variantVal r c (bestVariant (out.map (fillRequired req)) c)))) = out
  rw [hfill, hcols]
  calc out.map (fun r => F.map (fun c => (c, variantVal r c (bestVariant out c))))
      = out.map id := List.map_congr_left hrowid
  _ = out := List.map_id out

end Reconciler

/-- Claim C9: the Column Reconciler's `reconcile` is idempotent — for every
row sequence and every requiredColumns list, reconciling the output again
with the same required columns yields an identical table (spec §4.3,
modelled from the spec: no implementation exists under `src/`). -/
theorem C9_reconcile_idempotent (rows : List (List (String × JsonValue)))
    (req : List String) :
    Reconciler.reconcile (Reconciler.reconcile rows req) req =
      Reconciler.reconcile rows req := by
  cases rows with
  | nil => rfl
  | cons r0 rs =>
    apply Reconciler.reconcile_of_uniform _ req
      (Reconciler.reconcileCols ((r0 :: rs).map (Reconciler.fillRequired req)) req)
    · show Reconciler.reconcile (r0 :: rs) req ≠ []
      rw [Reconciler.reconcile]
      simp
    · exact Reconciler.reconcileCols_nodup _ _
    · exact fun c hc => Reconciler.mem_reconcileCols_of_req _ _ c hc
    · exact Reconciler.reconcileCols_eq _ _
    · intro r' hr'
      rw [Reconciler.reconcile] at hr'
      obtain ⟨r, hr, hreq⟩ := List.mem_map.mp hr'
      exact ⟨fun c => Reconciler.variantVal r c
        (Reconciler.bestVariant ((r0 :: rs).map (Reconciler.fillRequired req)) c),
        hreq.symm⟩

namespace Json

theorem toNat_ofNat_lt {n : Nat} (h : n < 55296) : (Char.ofNat n).toNat = n := by
  unfold Char.ofNat
  rw [dif_pos (Or.inl h)]
  rfl

theorem isDigitChar_toNat {c : Char} (h : isDigitChar c = true) :
    48 ≤ c.toNat ∧ c.toNat ≤ 57 := by
  rw [isDigitChar] at h
  simp only [Bool.and_eq_true, decide_eq_true_eq] at h
  obtain ⟨h1, h2⟩ := h
  rw [Char.le_def] at h1 h2
  exact ⟨h1, h2⟩

theorem isDigitChar_of_toNat {c : Char} (h1 : 48 ≤ c.toNat) (h2 : c.toNat ≤ 57) :
    isDigitChar c = true := by
  rw [isDigitChar]
  simp only [Bool.and_eq_true, decide_eq_true_eq]
  rw [Char.le_def, Char.le_def]
  exact ⟨h1, h2⟩

theorem digit_char_facts {c : Char} (h : isDigitChar c = true) :
    c ≠ '-' ∧ isJsonWs c = false ∧ c ≠ ']' ∧ c ≠ '}' ∧ c ≠ ',' ∧ c ≠ '"' ∧
      c ≠ '.' ∧ c ≠ 'e' ∧ c ≠ 'E' := by
  obtain ⟨h1, h2⟩ := isDigitChar_toNat h
  refine ⟨?_, ?_, ?_, ?_, ?_, ?_, ?_, ?_, ?_⟩
  · intro he; rw [he] at h1 h2; simp at h1 h2
  · rw [isJsonWs]
    have : c ≠ ' ' := by intro he; rw [he] at h1; simp at h1
    have : c ≠ '\t' := by intro he; rw [he] at h1; simp at h1
    have : c ≠ '\n' := by intro he; rw [he] at h1; simp at h1
    have : c ≠ '\r' := by intro he; rw [he] at h1; simp at h1
    rename_i ht hn hr
    simp_all
  · intro he; rw [he] at h1 h2; simp at h1 h2
  · intro he; rw [he] at h1 h2; simp at h1 h2
  · intro he; rw [he] at h1 h2; simp at h1 h2
  · intro he; rw [he] at h1 h2; simp at h1 h2
  · intro he; rw [he] at h1 h2; simp at h1 h2
  · intro he; rw [he] at h1 h2; simp at h1 h2
  · intro he; rw [he] at h1 h2; simp at h1 h2

theorem takeWhile_append_all {p : Char → Bool} {xs : List Char} (ys : List Char)
    (h : ∀ x ∈ xs, p x = true) :
    (xs ++ ys).takeWhile p = xs ++ ys.takeWhile p := by
  induction xs with
  | nil => simp
  | cons a t ih =>
    rw [List.cons_append, List.takeWhile_cons, h a (List.mem_cons_self _ _)]
    rw [ih (fun x hx => h x (List.mem_cons_of_mem a hx))]
    rfl

theorem dropWhile_append_all {p : Char → Bool} {xs : List Char} (ys : List Char)
    (h : ∀ x ∈ xs, p x = true) :
    (xs ++ ys).dropWhile p = ys.dropWhile p := by
  induction xs with
  | nil => simp
  | cons a t ih =>
    rw [List.cons_append, List.dropWhile_cons, h a (List.mem_cons_self _ _)]
    exact ih (fun x hx => h x (List.mem_cons_of_mem a hx))

theorem takeWhile_head_neg {p : Char → Bool} {ys : List Char}
    (h : ys = [] ∨ ∃ c cs, ys = c :: cs ∧ p c = false) :
    ys.takeWhile p = [] := by
  rcases h with h | ⟨c, cs, hy, hc⟩
  · rw [h]; rfl
  · rw [hy, List.takeWhile_cons, hc]; rfl

theorem dropWhile_head_neg {p : Char → Bool} {ys : List Char}
    (h : ys = [] ∨ ∃ c cs, ys = c :: cs ∧ p c = false) :
    ys.dropWhile p = ys := by
  rcases h with h | ⟨c, cs, hy, hc⟩
  · rw [h]; rfl
  · rw [hy, List.dropWhile_cons, hc]; rfl

theorem digitsToNat_append_singleton (xs : List Char) (c : Char) :
    digitsToNat (xs ++ [c]) = digitsToNat xs * 10 + (c.toNat - 48) := by
  rw [digitsToNat, digitsToNat, List.foldl_append, List.foldl_cons, List.foldl_nil]

/-- Specification of `natDigitsRevFuel`: with enough fuel it returns the
nonempty little-endian digit list whose big-endian value is `n`. -/
theorem natDigitsRevFuel_spec :
    ∀ fuel n, n < fuel →
      natDigitsRevFuel fuel n ≠ [] ∧
      (∀ c ∈ natDigitsRevFuel fuel n, isDigitChar c = true) ∧
      digitsToNat (natDigitsRevFuel fuel n).reverse = n := by
  intro fuel
  induction fuel with
  | zero => intro n hn; omega
  | succ f ih =>
    intro n hn
    rw [natDigitsRevFuel]
    by_cases h10 : n < 10
    · rw [if_pos h10]
      refine ⟨by simp, ?_, ?_⟩
      · intro c hc
        rw [List.mem_singleton] at hc
        subst hc
        apply isDigitChar_of_toNat <;> rw [toNat_ofNat_lt (by omega)] <;> omega
      · rw [List.reverse_singleton]
        show digitsToNat [Char.ofNat (48 + n)] = n
        rw [digitsToNat, List.foldl_cons, List.foldl_nil]
        rw [toNat_ofNat_lt (by omega)]
        omega
    · rw [if_neg h10]
      have hdiv : n / 10 < f := by
        have h1 : n / 10 < n := Nat.div_lt_self (by omega) (by omega)
        omega
      obtain ⟨hne, hdig, hval⟩ := ih (n / 10) hdiv
      refine ⟨by simp, ?_, ?_⟩
      · intro c hc
        rcases List.mem_cons.mp hc with h | h
        · subst h
          apply isDigitChar_of_toNat <;>
            rw [toNat_ofNat_lt (by have := Nat.mod_lt n (show 0 < 10 by omega); omega)] <;>
            (have hm := Nat.mod_lt n (show 0 < 10 by omega); omega)
        · exact hdig c h
      · rw [List.reverse_cons, digitsToNat_append_singleton, hval]
        rw [toNat_ofNat_lt (by have := Nat.mod_lt n (show 0 < 10 by omega); omega)]
        have hmod := Nat.mod_lt n (show 0 < 10 by omega)
        have := Nat.div_add_mod n 10
        omega

theorem natToChars_spec (n : Nat) :
    natToChars n ≠ [] ∧ (∀ c ∈ natToChars n, isDigitChar c = true) ∧
      digitsToNat (natToChars n) = n := by
  obtain ⟨h1, h2, h3⟩ := natDigitsRevFuel_spec (n + 1) n (by omega)
  rw [natToChars, natDigitsRev]
  refine ⟨by simpa using h1, ?_, h3⟩
  intro c hc
  exact h2 c (List.mem_reverse.mp hc)

theorem getLast?_natDigitsRevFuel :
    ∀ fuel n, n < fuel → 1 ≤ n →
      ∃ m, 1 ≤ m ∧ m < 10 ∧
        (natDigitsRevFuel fuel n).getLast? = some (Char.ofNat (48 + m)) := by
  intro fuel
  induction fuel with
  | zero => intro n hn; omega
  | succ f ih =>
    intro n hn h1
    rw [natDigitsRevFuel]
    by_cases h10 : n < 10
    · rw [if_pos h10]
      exact ⟨n, h1, h10, rfl⟩
    · rw [if_neg h10]
      have hdiv : n / 10 < f := by
        have := Nat.div_lt_self (show 0 < n by omega) (show 1 < 10 by omega)
        omega
      have hdiv1 : 1 ≤ n / 10 := (Nat.one_le_div_iff (by omega)).mpr (by omega)
      obtain ⟨m, hm1, hm2, hml⟩ := ih (n / 10) hdiv hdiv1
      obtain ⟨hne, _, _⟩ := natDigitsRevFuel_spec f (n / 10) hdiv
      refine ⟨m, hm1, hm2, ?_⟩
      cases hD : natDigitsRevFuel f (n / 10) with
      | nil => exact absurd hD hne
      | cons d0 ds0 =>
        rw [List.getLast?_cons_cons]
        rw [hD] at hml
        exact hml

theorem sepRest_not_digit {rest : List Char} (h : Json.sepRest rest) :
    rest = [] ∨ ∃ c cs, rest = c :: cs ∧ isDigitChar c = false := by
  rcases h with h | ⟨c, cs, hr, hc⟩
  · exact Or.inl h
  · refine Or.inr ⟨c, cs, hr, ?_⟩
    rcases hc with h | h | h <;> subst h <;> rfl

theorem sepRest_head_facts {rest : List Char} (h : Json.sepRest rest) :
    rest.head? ≠ some '.' ∧ rest.head? ≠ some 'e' ∧ rest.head? ≠ some 'E' := by
  rcases h with h | ⟨c, cs, hr, hc⟩
  · subst h; simp
  · subst hr
    rcases hc with h | h | h <;> subst h <;> simp

theorem parseNumber_digits (n : Nat) (rest : List Char) (hrest : Json.sepRest rest) :
    parseNumber (natToChars n ++ rest) = .ok (.num (Int.ofNat n), rest) := by
  obtain ⟨hne, hdig, hval⟩ := natToChars_spec n
  obtain ⟨d, tl, hD⟩ : ∃ d tl, natToChars n = d :: tl := by
    cases hD : natToChars n with
    | nil => exact absurd hD hne
    | cons d tl => exact ⟨d, tl, rfl⟩
  have hdd : isDigitChar d = true := hdig d (by rw [hD]; exact List.mem_cons_self _ _)
  have hhead : (natToChars n ++ rest).head? = some d := by
    rw [hD]
    rfl
  have hneg : ¬((natToChars n ++ rest).head? = some '-') := by
    rw [hhead]
    intro hcon
    exact (digit_char_facts hdd).1 (Option.some.inj hcon)
  have htake : (natToChars n ++ rest).takeWhile isDigitChar = natToChars n := by
    rw [takeWhile_append_all rest hdig,
      takeWhile_head_neg (sepRest_not_digit hrest), List.append_nil]
  have hdrop : (natToChars n ++ rest).dropWhile isDigitChar = rest := by
    rw [dropWhile_append_all rest hdig, dropWhile_head_neg (sepRest_not_digit hrest)]
  have hzero : (d = '0' && !tl.isEmpty) = false := by
    by_cases h10 : n < 10
    · have : natToChars n = [Char.ofNat (48 + n)] := by
        rw [natToChars, natDigitsRev, natDigitsRevFuel, if_pos h10]
        rfl
      rw [this] at hD
      have : tl = [] := (List.cons.inj hD).2.symm
      rw [this]
      simp
    · obtain ⟨m, hm1, hm2, hml⟩ :=
        getLast?_natDigitsRevFuel (n + 1) n (by omega) (by omega)
      have hdm : d = Char.ofNat (48 + m) := by
        have hh : (natToChars n).head? = (natDigitsRevFuel (n + 1) n).getLast? := by
          rw [natToChars, natDigitsRev, List.head?_reverse]
        rw [hD, hml] at hh
        exact Option.some.inj hh
      have : ¬(d = '0') := by
        rw [hdm]
        intro hcon
        have := congrArg Char.toNat hcon
        rw [toNat_ofNat_lt (by omega)] at this
        have h0 : ('0' : Char).toNat = 48 := rfl
        omega
      simp [this]
  obtain ⟨hd1, hd2, hd3⟩ := sepRest_head_facts hrest
  have hnext : (rest.head? = some '.' ∨ rest.head? = some 'e' ∨
      rest.head? = some 'E') = False := by
    simp [hd1, hd2, hd3]
  simp only [parseNumber]
  rw [if_neg hneg, htake, hdrop, hD]
  simp only [hzero, Bool.false_eq_true, if_false]
  rw [if_neg (by simp [hd1, hd2, hd3])]
  have hneg2 : ¬(((d :: tl) ++ rest).head? = some '-') := by
    rw [List.cons_append]
    intro hcon
    exact (digit_char_facts hdd).1 (Option.some.inj hcon)
  rw [if_neg hneg2, ← hD, hval]

theorem parseNumber_neg_digits (n : Nat) (rest : List Char)
    (hrest : Json.sepRest rest) :
    parseNumber ('-' :: (natToChars n ++ rest)) =
      .ok (.num (-(Int.ofNat n)), rest) := by
  obtain ⟨hne, hdig, hval⟩ := natToChars_spec n
  obtain ⟨d, tl, hD⟩ : ∃ d tl, natToChars n = d :: tl := by
    cases hD : natToChars n with
    | nil => exact absurd hD hne
    | cons d tl => exact ⟨d, tl, rfl⟩
  have hneg : ('-' :: (natToChars n ++ rest)).head? = some '-' := rfl
  have htake : (natToChars n ++ rest).takeWhile isDigitChar = natToChars n := by
    rw [takeWhile_append_all rest hdig,
      takeWhile_head_neg (sepRest_not_digit hrest), List.append_nil]
  have hdrop : (natToChars n ++ rest).dropWhile isDigitChar = rest := by
    rw [dropWhile_append_all rest hdig, dropWhile_head_neg (sepRest_not_digit hrest)]
  have hdd : isDigitChar d = true := hdig d (by rw [hD]; exact List.mem_cons_self _ _)
  have hzero : (d = '0' && !tl.isEmpty) = false := by
    by_cases h10 : n < 10
    · have : natToChars n = [Char.ofNat (48 + n)] := by
        rw [natToChars, natDigitsRev, natDigitsRevFuel, if_pos h10]
        rfl
      rw [this] at hD
      have : tl = [] := (List.cons.inj hD).2.symm
      rw [this]
      simp
    · obtain ⟨m, hm1, hm2, hml⟩ :=
        getLast?_natDigitsRevFuel (n + 1) n (by omega) (by omega)
      have hdm : d = Char.ofNat (48 + m) := by
        have hh : (natToChars n).head? = (natDigitsRevFuel (n + 1) n).getLast? := by
          rw [natToChars, natDigitsRev, List.head?_reverse]
        rw [hD, hml] at hh
        exact Option.some.inj hh
      have : ¬(d = '0') := by
        rw [hdm]
        intro hcon
        have := congrArg Char.toNat hcon
        rw [toNat_ofNat_lt (by omega)] at this
        have h0 : ('0' : Char).toNat = 48 := rfl
        omega
      simp [this]
  obtain ⟨hd1, hd2, hd3⟩ := sepRest_head_facts hrest
  simp only [parseNumber, List.head?_cons, List.tail_cons, Option.some.injEq]
  simp only [eq_self_iff_true, if_true]
  rw [htake, hdrop, hD]
  simp only [hzero, Bool.false_eq_true, if_false]
  rw [if_neg (by simp [hd1, hd2, hd3]), ← hD, hval]

theorem parseNumber_intToChars (i : Int) (rest : List Char)
    (hrest : Json.sepRest rest) :
    parseNumber (intToChars i ++ rest) = .ok (.num i, rest) := by
  rw [intToChars]
  by_cases hi : i < 0
  · rw [if_pos hi, List.cons_append, parseNumber_neg_digits _ _ hrest]
    have : (Int.ofNat (-i).toNat) = -i := Int.toNat_of_nonneg (by omega)
    rw [this, neg_neg]
  · rw [if_neg hi, parseNumber_digits _ _ hrest]
    have : (Int.ofNat i.toNat) = i := Int.toNat_of_nonneg (by omega)
    rw [this]

theorem hexVal_hexDigit : ∀ m < 16, hexDigitVal (hexDigitChar m) = some m := by
  decide

theorem parseStringBody_escape (s : List Char) (rest : List Char) :
    parseStringBody ((s.map escapeChar).flatten ++ '"' :: rest) = some (s, rest) := by
  induction s with
  | nil =>
    simp only [List.map_nil, List.flatten_nil, List.nil_append]
    rw [parseStringBody, if_pos rfl]
  | cons c cs ih =>
    rw [List.map_cons, List.flatten_cons, List.append_assoc]
    by_cases hq : c = '"'
    · subst hq
      rw [show escapeChar '"' = ['\\', '"'] from rfl]
      simp only [List.cons_append, List.nil_append]
      rw [parseStringBody, if_neg (by decide), if_pos rfl]
      rw [parseEscape]
      · rw [show shortEscape '"' = some '"' from rfl, ih]
        rfl
      · intro _ _ _ _ _ hcontra _
        exact absurd hcontra (by decide)
    · by_cases hb : c = '\\'
      · subst hb
        rw [show escapeChar '\\' = ['\\', '\\'] from rfl]
        simp only [List.cons_append, List.nil_append]
        rw [parseStringBody, if_neg (by decide), if_pos rfl]
        rw [parseEscape]
        · rw [show shortEscape '\\' = some '\\' from rfl, ih]
          rfl
        · intro _ _ _ _ _ hcontra _
          exact absurd hcontra (by decide)
      · by_cases hc32 : c.toNat < 32
        · have hesc : escapeChar c =
              ['\\', 'u', '0', '0', hexDigitChar (c.toNat / 16),
                hexDigitChar (c.toNat % 16)] := by
            rw [escapeChar, if_neg hq, if_neg hb, if_pos hc32]
          rw [hesc]
          simp only [List.cons_append, List.nil_append]
          rw [parseStringBody, if_neg (by decide), if_pos rfl]
          rw [parseEscape]
          have hv0 : hexDigitVal '0' = some 0 := rfl
          have hv1 : hexDigitVal (hexDigitChar (c.toNat / 16)) = some (c.toNat / 16) :=
            hexVal_hexDigit _ (by omega)
          have hv2 : hexDigitVal (hexDigitChar (c.toNat % 16)) = some (c.toNat % 16) :=
            hexVal_hexDigit _ (by omega)
          simp only [hv0, hv1, hv2]
          have hn : ((0 * 16 + 0) * 16 + c.toNat / 16) * 16 + c.toNat % 16 =
              c.toNat := by omega
          simp only [hn]
          rw [if_pos (by simp only [Bool.or_eq_true, decide_eq_true_eq]; omega)]
          rw [ih, Char.ofNat_toNat]
          rfl
        · have hesc : escapeChar c = [c] := by
            rw [escapeChar, if_neg hq, if_neg hb, if_neg hc32]
          rw [hesc]
          simp only [List.cons_append, List.nil_append]
          rw [parseStringBody, if_neg hq, if_neg hb, if_neg hc32, ih]
          rfl

theorem not_nl_of_not_ws {c : Char} (h : isJsonWs c = false) : c ≠ '\n' := by
  intro he
  rw [he] at h
  exact Bool.noConfusion h

theorem intToChars_head (i : Int) :
    ∃ c tl, intToChars i = c :: tl ∧ (c = '-' ∨ isDigitChar c = true) := by
  rw [intToChars]
  by_cases hi : i < 0
  · rw [if_pos hi]
    exact ⟨'-', natToChars (-i).toNat, rfl, Or.inl rfl⟩
  · rw [if_neg hi]
    obtain ⟨hne, hdig, _⟩ := natToChars_spec i.toNat
    cases hD : natToChars i.toNat with
    | nil => exact absurd hD hne
    | cons c tl =>
      exact ⟨c, tl, rfl, Or.inr (hdig c (by rw [hD]; exact List.mem_cons_self _ _))⟩

/-- The first character of a serialized value: never whitespace and never a
closer or separator, so the parser's dispatch always fires on it. -/
theorem dump_head (v : JsonValue) :
    ∃ c tl, dumpChars v = c :: tl ∧ isJsonWs c = false ∧
      c ≠ ']' ∧ c ≠ '}' ∧ c ≠ ',' := by
  cases v with
  | null => exact ⟨'n', _, rfl, by decide, by decide, by decide, by decide⟩
  | bool b =>
    cases b with
    | true => exact ⟨'t', _, rfl, by decide, by decide, by decide, by decide⟩
    | false => exact ⟨'f', _, rfl, by decide, by decide, by decide, by decide⟩
  | num i =>
    obtain ⟨c, tl, hI, hp⟩ := intToChars_head i
    refine ⟨c, tl, by rw [dumpChars, hI], ?_, ?_, ?_, ?_⟩ <;>
      rcases hp with h | h
    · rw [h]; decide
    · exact (digit_char_facts h).2.1
    · rw [h]; decide
    · exact (digit_char_facts h).2.2.1
    · rw [h]; decide
    · exact (digit_char_facts h).2.2.2.1
    · rw [h]; decide
    · exact (digit_char_facts h).2.2.2.2.1
  | str s => exact ⟨'"', _, rfl, by decide, by decide, by decide, by decide⟩
  | arr xs =>
    exact ⟨'[', dumpElems xs ++ [']'], by rw [dumpChars, List.cons_append],
      by decide, by decide, by decide, by decide⟩
  | obj kvs =>
    exact ⟨'{', dumpFields kvs ++ ['}'], by rw [dumpChars, List.cons_append],
      by decide, by decide, by decide, by decide⟩

theorem skipWs_cons_false {c : Char} (X : List Char) (h : isJsonWs c = false) :
    skipWs (c :: X) = c :: X := by
  rw [skipWs, List.dropWhile_cons, h]
  simp

/-- `skipWs` is a no-op in front of any serialized value. -/
theorem skipWs_dump (v : JsonValue) (rest : List Char) :
    skipWs (dumpChars v ++ rest) = dumpChars v ++ rest := by
  obtain ⟨c, tl, hD, hws, _⟩ := dump_head v
  rw [hD, List.cons_append, skipWs_cons_false _ hws]

theorem jsizeArr_pos (xs : List JsonValue) : 1 ≤ jsizeArr xs := by
  cases xs with
  | nil => rw [jsizeArr]
  | cons x xs => rw [jsizeArr]; omega

theorem jsizeObj_pos (kvs : List (String × JsonValue)) : 1 ≤ jsizeObj kvs := by
  cases kvs with
  | nil => rw [jsizeObj]
  | cons kv kvs => obtain ⟨k, v⟩ := kv; rw [jsizeObj]; omega

theorem jsize_pos (v : JsonValue) : 1 ≤ jsize v := by
  cases v with
  | null => rw [jsize]
  | bool b => rw [jsize]
  | num i => rw [jsize]
  | str s => rw [jsize]
  | arr xs => rw [jsize]; exact jsizeArr_pos xs
  | obj kvs => rw [jsize]; exact jsizeObj_pos kvs

theorem dumpElems_eq (x : JsonValue) (xs : List JsonValue) :
    dumpElems (x :: xs) = dumpChars x ++ elemsSep xs := by
  induction xs generalizing x with
  | nil => rw [dumpElems, elemsSep, List.append_nil]
  | cons y ys ih =>
    rw [dumpElems, elemsSep, ih]
    simp only [List.append_assoc, List.cons_append]

theorem dumpFields_eq (kv : String × JsonValue) (kvs : List (String × JsonValue)) :
    dumpFields (kv :: kvs) = dumpMember kv ++ fieldsSep kvs := by
  induction kvs generalizing kv with
  | nil =>
    obtain ⟨k, v⟩ := kv
    rw [dumpFields, fieldsSep, List.append_nil, dumpMember]
  | cons kv2 kvs2 ih =>
    obtain ⟨k, v⟩ := kv
    rw [dumpFields, fieldsSep, ih]
    simp only [dumpMember, List.append_assoc, List.cons_append]

theorem sepRest_elemsSep (xs : List JsonValue) (rest : List Char) :
    sepRest (elemsSep xs ++ ']' :: rest) := by
  cases xs with
  | nil => exact Or.inr ⟨']', rest, rfl, Or.inr (Or.inl rfl)⟩
  | cons x xs =>
    rw [elemsSep]
    exact Or.inr ⟨',', _, rfl, Or.inl rfl⟩

theorem sepRest_fieldsSep (kvs : List (String × JsonValue)) (rest : List Char) :
    sepRest (fieldsSep kvs ++ '}' :: rest) := by
  cases kvs with
  | nil => exact Or.inr ⟨'}', rest, rfl, Or.inr (Or.inr rfl)⟩
  | cons kv kvs =>
    rw [fieldsSep]
    exact Or.inr ⟨',', _, rfl, Or.inl rfl⟩

theorem pv_null (fuel : Nat) (rest : List Char) :
    parseValue (fuel + 1) ('n' :: 'u' :: 'l' :: 'l' :: rest) = .ok (.null, rest) := rfl

theorem pv_true (fuel : Nat) (rest : List Char) :
    parseValue (fuel + 1) ('t' :: 'r' :: 'u' :: 'e' :: rest) = .ok (.bool true, rest) := rfl

theorem pv_false (fuel : Nat) (rest : List Char) :
    parseValue (fuel + 1) ('f' :: 'a' :: 'l' :: 's' :: 'e' :: rest) =
      .ok (.bool false, rest) := rfl

theorem pv_dash (fuel : Nat) (X : List Char) :
    parseValue (fuel + 1) ('-' :: X) = parseNumber ('-' :: X) := rfl

theorem pv_quote (fuel : Nat) (X : List Char) :
    parseValue (fuel + 1) ('"' :: X) =
      (match parseStringBody X with
       | some (s, r) => .ok (.str ⟨s⟩, r)
       | none => .error "Unterminated or invalid string") := rfl

theorem pv_lbrack (fuel : Nat) (X : List Char) :
    parseValue (fuel + 1) ('[' :: X) =
      (if (skipWs X).head? = some ']' then .ok (.arr [], (skipWs X).tail)
       else
         match parseValue fuel (skipWs X) with
         | .ok (v, r2) => parseArrTail fuel [v] r2
         | .error e => .error e) := rfl

theorem pv_lbrace (fuel : Nat) (X : List Char) :
    parseValue (fuel + 1) ('{' :: X) =
      (if (skipWs X).head? = some '}' then .ok (.obj [], (skipWs X).tail)
       else
         match parseMember fuel (skipWs X) with
         | .ok (k, v, r2) => parseObjTail fuel (objInsert [] k v) r2
         | .error e => .error e) := rfl

theorem pm_quote (fuel : Nat) (X : List Char) :
    parseMember (fuel + 1) ('"' :: X) =
      (match parseStringBody X with
       | some (k, r1) =>
         (match skipWs r1 with
          | ':' :: r2 =>
            (match parseValue fuel r2 with
             | .ok (v, r3) => .ok (⟨k⟩, v, r3)
             | .error e => .error e)
          | _ => .error "Expecting colon delimiter")
       | none => .error "Unterminated or invalid string") := rfl

theorem pat_rbrack (fuel : Nat) (acc : List JsonValue) (r : List Char) :
    parseArrTail (fuel + 1) acc (']' :: r) = .ok (.arr acc, r) := rfl

theorem pat_comma (fuel : Nat) (acc : List JsonValue) (r : List Char) :
    parseArrTail (fuel + 1) acc (',' :: r) =
      (match parseValue fuel r with
       | .ok (v, r2) => parseArrTail fuel (acc ++ [v]) r2
       | .error e => .error e) := rfl

theorem pot_rbrace (fuel : Nat) (acc : List (String × JsonValue)) (r : List Char) :
    parseObjTail (fuel + 1) acc ('}' :: r) = .ok (.obj acc, r) := rfl

theorem pot_comma (fuel : Nat) (acc : List (String × JsonValue)) (r : List Char) :
    parseObjTail (fuel + 1) acc (',' :: r) =
      (match parseMember fuel (skipWs r) with
       | .ok (k, v, r2) => parseObjTail fuel (objInsert acc k v) r2
       | .error e => .error e) := rfl

theorem pv_digit {c : Char} (fuel : Nat) (X : List Char)
    (hdig : isDigitChar c = true) :
    parseValue (fuel + 1) (c :: X) = parseNumber (c :: X) := by
  have hws : isJsonWs c = false := (digit_char_facts hdig).2.1
  rw [parseValue, skipWs_cons_false _ hws]
  simp only [hdig, Bool.or_true, if_true]

theorem pv_num_dispatch (fuel : Nat) (i : Int) (rest : List Char) :
    parseValue (fuel + 1) (intToChars i ++ rest) = parseNumber (intToChars i ++ rest) := by
  obtain ⟨c, tl, hI, hp⟩ := intToChars_head i
  rw [hI, List.cons_append]
  rcases hp with h | h
  · rw [h]; exact pv_dash fuel (tl ++ rest)
  · exact pv_digit fuel (tl ++ rest) h

theorem dumpMember_cons (k : String) (v : JsonValue) :
    dumpMember (k, v) =
      '"' :: ((k.data.map escapeChar).flatten ++ '"' :: ':' :: dumpChars v) := by
  rw [dumpMember, escapeString]
  simp only [List.cons_append, List.append_assoc, List.singleton_append,
    List.nil_append]

theorem skipWs_member (kv : String × JsonValue) (Y : List Char) :
    skipWs (dumpMember kv ++ Y) = dumpMember kv ++ Y := by
  obtain ⟨k, v⟩ := kv
  rw [dumpMember_cons, List.cons_append, skipWs_cons_false _ (by decide)]

theorem key_ne_of_any_false {kvs : List (String × JsonValue)} {k : String}
    (h : kvs.any (fun kv => kv.1 = k) = false) :
    ∀ kv ∈ kvs, ¬(kv.1 = k) := by
  intro kv hkv hEq
  have htrue : kvs.any (fun kv => kv.1 = k) = true :=
    List.any_eq_true.mpr ⟨kv, hkv, by simp [hEq]⟩
  rw [h] at htrue
  exact Bool.noConfusion htrue

/-- Round trip of the serializer through every component of the
recursive-descent parser, by induction on the parser's fuel: a serialized
well-formed value followed by a separator-or-nothing rest parses back to
exactly that value with the rest untouched. -/
theorem parse_dump_all (fuel : Nat) :
    (∀ v rest, jsize v ≤ fuel → wfObj v = true → sepRest rest →
       parseValue fuel (dumpChars v ++ rest) = .ok (v, rest)) ∧
    (∀ k v rest, jsize v + 1 ≤ fuel → wfObj v = true → sepRest rest →
       parseMember fuel (dumpMember (k, v) ++ rest) = .ok (k, v, rest)) ∧
    (∀ acc xs rest, jsizeArr xs ≤ fuel → wfArr xs = true → sepRest rest →
       parseArrTail fuel acc (elemsSep xs ++ ']' :: rest) =
         .ok (.arr (acc ++ xs), rest)) ∧
    (∀ acc kvs rest, jsizeObj kvs ≤ fuel → wfFields kvs = true → sepRest rest →
       (∀ kv ∈ kvs, acc.any (fun p => p.1 = kv.1) = false) →
       parseObjTail fuel acc (fieldsSep kvs ++ '}' :: rest) =
         .ok (.obj (acc ++ kvs), rest)) := by
  induction fuel with
  | zero =>
    refine ⟨?_, ?_, ?_, ?_⟩
    · intro v rest hsz _ _
      exact absurd hsz (by have := jsize_pos v; omega)
    · intro k v rest hsz _ _
      exact absurd hsz (by omega)
    · intro acc xs rest hsz _ _
      exact absurd hsz (by have := jsizeArr_pos xs; omega)
    · intro acc kvs rest hsz _ _ _
      exact absurd hsz (by have := jsizeObj_pos kvs; omega)
  | succ f ih =>
    obtain ⟨ihV, ihM, ihA, ihO⟩ := ih
    refine ⟨?_, ?_, ?_, ?_⟩
    · intro v rest hsz hwf hrest
      cases v with
      | null => exact pv_null f rest
      | bool b =>
        cases b with
        | true => exact pv_true f rest
        | false => exact pv_false f rest
      | num i =>
        rw [dumpChars, pv_num_dispatch]
        exact parseNumber_intToChars i rest hrest
      | str s =>
        rw [dumpChars, escapeString]
        simp only [List.cons_append, List.append_assoc, List.singleton_append,
          List.nil_append]
        rw [pv_quote, parseStringBody_escape s.data rest]
      | arr xs =>
        cases xs with
        | nil => rfl
        | cons x xs' =>
          rw [dumpChars, dumpElems_eq]
          simp only [List.cons_append, List.append_assoc, List.singleton_append,
            List.nil_append]
          rw [pv_lbrack, skipWs_dump x (elemsSep xs' ++ ']' :: rest)]
          obtain ⟨c, tl, hD, hws, hc1, hc2, hc3⟩ := dump_head x
          have hcond :
              ¬((dumpChars x ++ (elemsSep xs' ++ ']' :: rest)).head? = some ']') := by
            rw [hD, List.cons_append, List.head?_cons]
            intro hcon
            exact hc1 (Option.some.inj hcon)
          rw [if_neg hcond]
          simp only [jsize, jsizeArr] at hsz
          simp only [wfObj, wfArr, Bool.and_eq_true] at hwf
          rw [ihV x (elemsSep xs' ++ ']' :: rest)
            (by have := jsizeArr_pos xs'; omega) hwf.1 (sepRest_elemsSep xs' rest)]
          show parseArrTail f [x] (elemsSep xs' ++ ']' :: rest) =
            Except.ok (JsonValue.arr (x :: xs'), rest)
          exact ihA [x] xs' rest (by omega) hwf.2 hrest
      | obj kvs =>
        cases kvs with
        | nil => rfl
        | cons kv kvs' =>
          obtain ⟨k, v⟩ := kv
          rw [dumpChars, dumpFields_eq]
          simp only [List.cons_append, List.append_assoc, List.singleton_append,
            List.nil_append]
          rw [pv_lbrace, skipWs_member (k, v) (fieldsSep kvs' ++ '}' :: rest)]
          have hcond :
              ¬((dumpMember (k, v) ++ (fieldsSep kvs' ++ '}' :: rest)).head? =
                some '}') := by
            rw [dumpMember_cons, List.cons_append, List.head?_cons]
            intro hcon
            exact absurd (Option.some.inj hcon) (by decide)
          rw [if_neg hcond]
          simp only [jsize, jsizeObj] at hsz
          simp only [wfObj, wfFields, Bool.and_eq_true, Bool.not_eq_true'] at hwf
          have hfresh := hwf.1.1
          have hv := hwf.1.2
          have hkvs' := hwf.2
          rw [ihM k v (fieldsSep kvs' ++ '}' :: rest)
            (by have := jsizeObj_pos kvs'; omega) hv (sepRest_fieldsSep kvs' rest)]
          show parseObjTail f (objInsert [] k v) (fieldsSep kvs' ++ '}' :: rest) =
            Except.ok (JsonValue.obj ((k, v) :: kvs'), rest)
          have hins : objInsert [] k v = [(k, v)] := rfl
          rw [hins]
          have hdisj1 : ∀ kv2 ∈ kvs', [(k, v)].any (fun p => p.1 = kv2.1) = false := by
            intro kv2 hkv2
            simp only [List.any_cons, List.any_nil, Bool.or_false]
            exact decide_eq_false
              (fun hEq => key_ne_of_any_false hfresh kv2 hkv2 hEq.symm)
          exact ihO [(k, v)] kvs' rest (by omega) hkvs' hrest hdisj1
    · intro k v rest hsz hwf hrest
      rw [dumpMember_cons, List.cons_append, List.append_assoc, pm_quote]
      rw [show '"' :: ':' :: dumpChars v ++ rest =
        '"' :: ':' :: (dumpChars v ++ rest) from rfl]
      rw [parseStringBody_escape k.data (':' :: (dumpChars v ++ rest))]
      show (match parseValue f (dumpChars v ++ rest) with
            | .ok (v2, r3) => Except.ok ((⟨k.data⟩ : String), v2, r3)
            | .error e => Except.error e) = Except.ok (k, v, rest)
      rw [ihV v rest (by omega) hwf hrest]
    · intro acc xs rest hsz hwf hrest
      cases xs with
      | nil =>
        simp only [List.append_nil]
        exact pat_rbrack f acc rest
      | cons x xs' =>
        rw [elemsSep]
        simp only [List.cons_append, List.append_assoc, List.nil_append]
        rw [pat_comma]
        simp only [jsizeArr] at hsz
        simp only [wfArr, Bool.and_eq_true] at hwf
        rw [ihV x (elemsSep xs' ++ ']' :: rest)
          (by have := jsizeArr_pos xs'; omega) hwf.1 (sepRest_elemsSep xs' rest)]
        show parseArrTail f (acc ++ [x]) (elemsSep xs' ++ ']' :: rest) =
          Except.ok (JsonValue.arr (acc ++ x :: xs'), rest)
        rw [ihA (acc ++ [x]) xs' rest (by omega) hwf.2 hrest, List.append_assoc,
          List.singleton_append]
    · intro acc kvs rest hsz hwf hrest hdisj
      cases kvs with
      | nil =>
        simp only [List.append_nil]
        exact pot_rbrace f acc rest
      | cons kv kvs' =>
        obtain ⟨k, v⟩ := kv
        rw [fieldsSep]
        simp only [List.cons_append, List.append_assoc, List.nil_append]
        rw [pot_comma, skipWs_member (k, v) (fieldsSep kvs' ++ '}' :: rest)]
        simp only [jsizeObj] at hsz
        simp only [wfFields, Bool.and_eq_true, Bool.not_eq_true'] at hwf
        have hfresh := hwf.1.1
        have hv := hwf.1.2
        have hkvs' := hwf.2
        rw [ihM k v (fieldsSep kvs' ++ '}' :: rest)
          (by have := jsizeObj_pos kvs'; omega) hv (sepRest_fieldsSep kvs' rest)]
        show parseObjTail f (objInsert acc k v) (fieldsSep kvs' ++ '}' :: rest) =
          Except.ok (JsonValue.obj (acc ++ (k, v) :: kvs'), rest)
        rw [objInsert_fresh acc k v (hdisj (k, v) (List.mem_cons_self _ _))]
        have hdisj2 : ∀ kv2 ∈ kvs',
            (acc ++ [(k, v)]).any (fun p => p.1 = kv2.1) = false := by
          intro kv2 hkv2
          rw [List.any_append]
          have h1 := hdisj kv2 (List.mem_cons_of_mem _ hkv2)
          have h2 : ([(k, v)] : List (String × JsonValue)).any
              (fun p => p.1 = kv2.1) = false := by
            simp only [List.any_cons, List.any_nil, Bool.or_false]
            exact decide_eq_false
              (fun hEq => key_ne_of_any_false hfresh kv2 hkv2 hEq.symm)
          rw [h1, h2]
          rfl
        rw [ihO (acc ++ [(k, v)]) kvs' rest (by omega) hkvs' hrest hdisj2,
          List.append_assoc, List.singleton_append]

theorem elems_bound (xs : List JsonValue)
    (h : ∀ x ∈ xs, jsize x ≤ (dumpChars x).length) :
    jsizeArr xs ≤ (elemsSep xs).length + 1 := by
  induction xs with
  | nil => rw [jsizeArr, elemsSep]; rfl
  | cons x xs ih =>
    rw [jsizeArr, elemsSep]
    have hx := h x (List.mem_cons_self _ _)
    have hxs := ih (fun y hy => h y (List.mem_cons_of_mem _ hy))
    simp only [List.length_cons, List.length_append]
    omega

theorem fields_bound (kvs : List (String × JsonValue))
    (h : ∀ kv ∈ kvs, jsize kv.2 ≤ (dumpChars kv.2).length) :
    jsizeObj kvs ≤ (fieldsSep kvs).length + 1 := by
  induction kvs with
  | nil => rw [jsizeObj, fieldsSep]; rfl
  | cons kv kvs ih =>
    obtain ⟨k, v⟩ := kv
    rw [jsizeObj, fieldsSep]
    have hx := h (k, v) (List.mem_cons_self _ _)
    have hxs := ih (fun y hy => h y (List.mem_cons_of_mem _ hy))
    simp only [dumpMember, List.length_cons, List.length_append]
    simp only at hx
    omega

/-- The serialization is at least as long as the fuel measure, so
`parseTop`'s fuel `length + 1` always suffices. -/
theorem jsize_le_dump_len (v : JsonValue) : jsize v ≤ (dumpChars v).length := by
  cases v with
  | null => decide
  | bool b => cases b <;> decide
  | num i =>
    rw [jsize, dumpChars]
    obtain ⟨c, tl, hI, _⟩ := intToChars_head i
    rw [hI]
    simp
  | str s =>
    rw [jsize, dumpChars, escapeString]
    simp only [List.cons_append, List.length_cons]
    omega
  | arr xs =>
    have hb := elems_bound xs (fun x hx => jsize_le_dump_len x)
    rw [jsize, dumpChars]
    cases xs with
    | nil => decide
    | cons x xs' =>
      rw [dumpElems_eq]
      rw [elemsSep] at hb
      simp only [List.length_append, List.length_cons] at hb ⊢
      omega
  | obj kvs =>
    have hb := fields_bound kvs (fun kv hkv => jsize_le_dump_len kv.2)
    rw [jsize, dumpChars]
    cases kvs with
    | nil => decide
    | cons kv kvs' =>
      rw [dumpFields_eq]
      rw [fieldsSep] at hb
      simp only [List.length_append, List.length_cons] at hb ⊢
      omega
termination_by sizeOf v
decreasing_by
  · have h1 := List.sizeOf_lt_of_mem hx
    simp only [JsonValue.arr.sizeOf_spec]
    omega
  · have h1 := List.sizeOf_lt_of_mem hkv
    obtain ⟨a, b⟩ := kv
    simp only [Prod.mk.sizeOf_spec] at h1
    simp only [JsonValue.obj.sizeOf_spec]
    omega

/-- `json.loads` inverts the serializer on every well-formed value (at the
character-list level). -/
theorem parseTop_dump (v : JsonValue) (hwf : wfObj v = true) :
    parseTop (dumpChars v) = .ok v := by
  have hv := (parse_dump_all ((dumpChars v).length + 1)).1 v []
    (by have := jsize_le_dump_len v; omega) hwf (Or.inl rfl)
  rw [List.append_nil] at hv
  rw [parseTop, hv]
  rfl

/-- `json.loads (json.dumps v) = v` for every well-formed value. -/
theorem loads_dumps (v : JsonValue) (hwf : wfObj v = true) :
    loads (dumps v) = .ok v := parseTop_dump v hwf

theorem hexDigitChar_ne_nl {n : Nat} (h : n < 16) : hexDigitChar n ≠ '\n' := by
  have h2 : ('\n').toNat = 10 := rfl
  rw [hexDigitChar]
  by_cases h10 : n < 10
  · rw [if_pos h10]
    intro hc
    have h3 := congrArg Char.toNat hc
    rw [toNat_ofNat_lt (by omega), h2] at h3
    omega
  · rw [if_neg h10]
    intro hc
    have h3 := congrArg Char.toNat hc
    rw [toNat_ofNat_lt (by omega), h2] at h3
    omega

theorem escapeChar_no_nl (c : Char) : ∀ x ∈ escapeChar c, x ≠ '\n' := by
  intro x hx
  rw [escapeChar] at hx
  by_cases hq : c = '"'
  · rw [if_pos hq] at hx
    simp only [List.mem_cons, List.not_mem_nil, or_false] at hx
    rcases hx with h | h <;> subst h <;> decide
  · rw [if_neg hq] at hx
    by_cases hb : c = '\\'
    · rw [if_pos hb] at hx
      simp only [List.mem_cons, List.not_mem_nil, or_false] at hx
      rcases hx with h | h <;> subst h <;> decide
    · rw [if_neg hb] at hx
      by_cases h32 : c.toNat < 32
      · rw [if_pos h32] at hx
        simp only [List.mem_cons, List.not_mem_nil, or_false] at hx
        rcases hx with h | h | h | h | h | h
        · subst h; decide
        · subst h; decide
        · subst h; decide
        · subst h; decide
        · subst h; exact hexDigitChar_ne_nl (by omega)
        · subst h; exact hexDigitChar_ne_nl (by omega)
      · rw [if_neg h32] at hx
        simp only [List.mem_singleton] at hx
        subst hx
        intro hc
        rw [hc] at h32
        exact h32 (by decide)

theorem escapeString_no_nl (s : String) : ∀ x ∈ escapeString s, x ≠ '\n' := by
  intro x hx
  rw [escapeString] at hx
  rcases List.mem_append.mp hx with h1 | h1
  · rcases List.mem_cons.mp h1 with h2 | h2
    · subst h2; decide
    · obtain ⟨l, hl, hxl⟩ := List.mem_flatten.mp h2
      obtain ⟨a, _, hal⟩ := List.mem_map.mp hl
      rw [← hal] at hxl
      exact escapeChar_no_nl a x hxl
  · rw [List.mem_singleton] at h1; subst h1; decide

theorem intToChars_no_nl (i : Int) : ∀ x ∈ intToChars i, x ≠ '\n' := by
  intro x hx
  rw [intToChars] at hx
  have hdig : ∀ n : Nat, x ∈ natToChars n → x ≠ '\n' := by
    intro n hn
    have hd := (natToChars_spec n).2.1 x hn
    exact not_nl_of_not_ws (digit_char_facts hd).2.1
  by_cases hi : i < 0
  · rw [if_pos hi] at hx
    rcases List.mem_cons.mp hx with h | h
    · subst h; decide
    · exact hdig _ h
  · rw [if_neg hi] at hx
    exact hdig _ hx

theorem dumpMember_no_nl (kv : String × JsonValue)
    (h : ∀ c ∈ dumpChars kv.2, c ≠ '\n') : ∀ c ∈ dumpMember kv, c ≠ '\n' := by
  intro c hc
  rw [dumpMember] at hc
  rcases List.mem_append.mp hc with h1 | h1
  · exact escapeString_no_nl kv.1 c h1
  · rcases List.mem_cons.mp h1 with h2 | h2
    · subst h2; decide
    · exact h c h2

theorem elemsSep_no_nl (xs : List JsonValue)
    (h : ∀ x ∈ xs, ∀ c ∈ dumpChars x, c ≠ '\n') :
    ∀ c ∈ elemsSep xs, c ≠ '\n' := by
  induction xs with
  | nil =>
    intro c hc
    rw [elemsSep] at hc
    exact absurd hc (List.not_mem_nil c)
  | cons x xs ih =>
    intro c hc
    rw [elemsSep] at hc
    rcases List.mem_cons.mp hc with h1 | h1
    · subst h1; decide
    · rcases List.mem_append.mp h1 with h2 | h2
      · exact h x (List.mem_cons_self _ _) c h2
      · exact ih (fun y hy => h y (List.mem_cons_of_mem _ hy)) c h2

theorem fieldsSep_no_nl (kvs : List (String × JsonValue))
    (h : ∀ kv ∈ kvs, ∀ c ∈ dumpChars kv.2, c ≠ '\n') :
    ∀ c ∈ fieldsSep kvs, c ≠ '\n' := by
  induction kvs with
  | nil =>
    intro c hc
    rw [fieldsSep] at hc
    exact absurd hc (List.not_mem_nil c)
  | cons kv kvs ih =>
    intro c hc
    rw [fieldsSep] at hc
    rcases List.mem_cons.mp hc with h1 | h1
    · subst h1; decide
    · rcases List.mem_append.mp h1 with h2 | h2
      · exact dumpMember_no_nl kv (h kv (List.mem_cons_self _ _)) c h2
      · exact ih (fun y hy => h y (List.mem_cons_of_mem _ hy)) c h2

/-- The serializer never emits a raw newline (newlines inside strings are
escaped), so the newline-collapsing cleanup step is a no-op on its output. -/
theorem dump_no_nl (v : JsonValue) : ∀ c ∈ dumpChars v, c ≠ '\n' := by
  cases v with
  | null => decide
  | bool b => cases b <;> decide
  | num i => rw [dumpChars]; exact intToChars_no_nl i
  | str s => rw [dumpChars]; exact escapeString_no_nl s
  | arr xs =>
    have hmem : ∀ x ∈ xs, ∀ c ∈ dumpChars x, c ≠ '\n' :=
      fun x hx => dump_no_nl x
    intro c hc
    rw [dumpChars] at hc
    rcases List.mem_append.mp hc with h1 | h1
    · rcases List.mem_cons.mp h1 with h2 | h2
      · subst h2; decide
      · cases xs with
        | nil =>
          rw [dumpElems] at h2
          exact absurd h2 (List.not_mem_nil c)
        | cons x xs' =>
          rw [dumpElems_eq] at h2
          rcases List.mem_append.mp h2 with h3 | h3
          · exact hmem x (List.mem_cons_self _ _) c h3
          · exact elemsSep_no_nl xs'
              (fun y hy => hmem y (List.mem_cons_of_mem _ hy)) c h3
    · rw [List.mem_singleton] at h1; subst h1; decide
  | obj kvs =>
    have hmem : ∀ kv ∈ kvs, ∀ c ∈ dumpChars kv.2, c ≠ '\n' :=
      fun kv hkv => dump_no_nl kv.2
    intro c hc
    rw [dumpChars] at hc
    rcases List.mem_append.mp hc with h1 | h1
    · rcases List.mem_cons.mp h1 with h2 | h2
      · subst h2; decide
      · cases kvs with
        | nil =>
          rw [dumpFields] at h2
          exact absurd h2 (List.not_mem_nil c)
        | cons kv kvs' =>
          rw [dumpFields_eq] at h2
          rcases List.mem_append.mp h2 with h3 | h3
          · exact dumpMember_no_nl kv (hmem kv (List.mem_cons_self _ _)) c h3
          · exact fieldsSep_no_nl kvs'
              (fun y hy => hmem y (List.mem_cons_of_mem _ hy)) c h3
    · rw [List.mem_singleton] at h1; subst h1; decide
termination_by sizeOf v
decreasing_by
  · have h1 := List.sizeOf_lt_of_mem hx
    simp only [JsonValue.arr.sizeOf_spec]
    omega
  · have h1 := List.sizeOf_lt_of_mem hkv
    obtain ⟨a, b⟩ := kv
    simp only [Prod.mk.sizeOf_spec] at h1
    simp only [JsonValue.obj.sizeOf_spec]
    omega

theorem dw_pos {p : Char → Bool} (a : Char) (l : List Char) (h : p a = true) :
    (a :: l).dropWhile p = l.dropWhile p := by
  rw [List.dropWhile_cons, h]
  simp

theorem dw_neg {p : Char → Bool} (a : Char) (l : List Char) (h : p a = false) :
    (a :: l).dropWhile p = a :: l := by
  rw [List.dropWhile_cons, h]
  simp

theorem sub1Go_cons_false (c : Char) (L : List Char) :
    JsonText.sub1Go false (c :: L) = c :: JsonText.sub1Go (c = '\n') L := rfl

/-- The MULTILINE fence removal passes text without newlines through
unchanged when not at a line start. -/
theorem sub1Go_false_through (M rest : List Char) (h : ∀ c ∈ M, c ≠ '\n') :
    JsonText.sub1Go false (M ++ rest) = M ++ JsonText.sub1Go false rest := by
  induction M with
  | nil => rfl
  | cons c M' ih =>
    rw [List.cons_append, sub1Go_cons_false,
      decide_eq_false (h c (List.mem_cons_self _ _)),
      ih (fun y hy => h y (List.mem_cons_of_mem _ hy)), List.cons_append]

theorem replaceNl_no_nl (l : List Char) (h : ∀ c ∈ l, c ≠ '\n') :
    JsonText.replaceNl l = l := by
  induction l with
  | nil => rfl
  | cons c l' ih =>
    rw [JsonText.replaceNl, List.map_cons,
      if_neg (h c (List.mem_cons_self _ _))]
    have ih2 := ih (fun y hy => h y (List.mem_cons_of_mem _ hy))
    rw [JsonText.replaceNl] at ih2
    rw [ih2]

/-- `str.strip` is a no-op on a list whose first and last characters are
not whitespace. -/
theorem pyStrip_no_strip (l : List Char)
    (h1 : ∀ c, l.head? = some c → JsonText.isPyWs c = false)
    (h2 : ∀ c, l.getLast? = some c → JsonText.isPyWs c = false) :
    JsonText.pyStrip l = l := by
  rw [JsonText.pyStrip]
  have hd : l.dropWhile JsonText.isPyWs = l := by
    cases l with
    | nil => rfl
    | cons a t => exact dw_neg a t (h1 a rfl)
  rw [hd]
  have hr : l.reverse.dropWhile JsonText.isPyWs = l.reverse := by
    cases hrev : l.reverse with
    | nil => rfl
    | cons a t =>
      refine dw_neg a t (h2 a ?_)
      rw [← List.head?_reverse, hrev, List.head?_cons]
  rw [hr, List.reverse_reverse]

theorem sub2_obj (mid : List Char) :
    JsonText.sub2 ('{' :: mid ++ ['}']) = '{' :: mid ++ ['}'] := by
  have hrev : ('{' :: mid ++ ['}'] : List Char).reverse = '}' :: ('{' :: mid).reverse := by
    rw [List.reverse_append, List.reverse_singleton, List.singleton_append]
  have htake : ('}' :: ('{' :: mid).reverse).take 3 =
      '}' :: ('{' :: mid).reverse.take 2 := rfl
  have hne : ¬(('{' :: mid ++ ['}'] : List Char).reverse.take 3 =
      ['\x60', '\x60', '\x60']) := by
    rw [hrev, htake]
    intro hcon
    exact absurd (List.cons.inj hcon).1 (by decide)
  rw [JsonText.sub2, if_neg hne]

theorem pyStrip_obj (mid : List Char) :
    JsonText.pyStrip ('{' :: mid ++ ['}']) = '{' :: mid ++ ['}'] := by
  refine pyStrip_no_strip _ ?_ ?_
  · intro c hc
    rw [List.cons_append, List.head?_cons] at hc
    rw [← Option.some.inj hc]
    rfl
  · intro c hc
    rw [List.getLast?_concat] at hc
    rw [← Option.some.inj hc]
    rfl

theorem obj_no_nl {mid : List Char} (hnl : ∀ c ∈ mid, c ≠ '\n') :
    ∀ c ∈ ('{' :: mid ++ ['}'] : List Char), c ≠ '\n' := by
  intro c hc
  rcases List.mem_append.mp hc with h1 | h1
  · rcases List.mem_cons.mp h1 with h2 | h2
    · subst h2; decide
    · exact hnl c h2
  · rw [List.mem_singleton] at h1; subst h1; decide

/-- The cleanup chain of `clean_json_output` is a no-op on a single-line
brace-delimited text. -/
theorem cleanedText_plain (mid : List Char) (hnl : ∀ c ∈ mid, c ≠ '\n') :
    cleanedText ⟨'{' :: mid ++ ['}']⟩ = '{' :: mid ++ ['}'] := by
  have hM : ∀ c ∈ mid ++ ['}'], c ≠ '\n' := by
    intro c hc
    rcases List.mem_append.mp hc with h1 | h1
    · exact hnl c h1
    · rw [List.mem_singleton] at h1; subst h1; decide
  have hsub1 : JsonText.sub1 ('{' :: mid ++ ['}']) =
      '{' :: JsonText.sub1Go false (mid ++ ['}']) := rfl
  have hsub1' : JsonText.sub1 ('{' :: mid ++ ['}']) = '{' :: mid ++ ['}'] := by
    rw [hsub1, sub1Go_false_through mid ['}'] hnl]
    rfl
  simp only [cleanedText]
  rw [pyStrip_obj, hsub1', pyStrip_obj, sub2_obj,
    replaceNl_no_nl _ (obj_no_nl hnl), pyStrip_obj]

/-- The cleanup chain of `clean_json_output` strips a `\x60\x60\x60json ... \x60\x60\x60`
code fence (with its surrounding newlines) from a single-line
brace-delimited text. -/
theorem cleanedText_fence (mid : List Char) (hnl : ∀ c ∈ mid, c ≠ '\n') :
    cleanedText (fenceWrap ⟨'{' :: mid ++ ['}']⟩) = '{' :: mid ++ ['}'] := by
  have hM : ∀ c ∈ mid ++ ['}'], c ≠ '\n' := by
    intro c hc
    rcases List.mem_append.mp hc with h1 | h1
    · exact hnl c h1
    · rw [List.mem_singleton] at h1; subst h1; decide
  have hdata : (fenceWrap ⟨'{' :: mid ++ ['}']⟩).data =
      ('\x60' :: '\x60' :: '\x60' :: 'j' :: 's' :: 'o' :: 'n' :: '\n' ::
        ('{' :: mid ++ ['}'])) ++ ['\n', '\x60', '\x60', '\x60'] := rfl
  have hstrip1 :
      JsonText.pyStrip
        (('\x60' :: '\x60' :: '\x60' :: 'j' :: 's' :: 'o' :: 'n' :: '\n' ::
          ('{' :: mid ++ ['}'])) ++ ['\n', '\x60', '\x60', '\x60']) =
        ('\x60' :: '\x60' :: '\x60' :: 'j' :: 's' :: 'o' :: 'n' :: '\n' ::
          ('{' :: mid ++ ['}'])) ++ ['\n', '\x60', '\x60', '\x60'] := by
    refine pyStrip_no_strip _ ?_ ?_
    · intro c hc
      rw [List.cons_append, List.head?_cons] at hc
      rw [← Option.some.inj hc]
      rfl
    · intro c hc
      have hE2 :
          (('\x60' :: '\x60' :: '\x60' :: 'j' :: 's' :: 'o' :: 'n' :: '\n' ::
            ('{' :: mid ++ ['}'])) ++ ['\n', '\x60', '\x60', '\x60'] : List Char) =
          (('\x60' :: '\x60' :: '\x60' :: 'j' :: 's' :: 'o' :: 'n' :: '\n' ::
            ('{' :: mid ++ ['}'])) ++ ['\n', '\x60', '\x60']) ++ ['\x60'] := by
        rw [List.append_assoc]
        rfl
      rw [hE2, List.getLast?_concat] at hc
      rw [← Option.some.inj hc]
      rfl
  have hsub1 :
      JsonText.sub1
        (('\x60' :: '\x60' :: '\x60' :: 'j' :: 's' :: 'o' :: 'n' :: '\n' ::
          ('{' :: mid ++ ['}'])) ++ ['\n', '\x60', '\x60', '\x60']) =
      '\n' :: '{' ::
        JsonText.sub1Go false ((mid ++ ['}']) ++ ['\n', '\x60', '\x60', '\x60']) := rfl
  have hthrough :
      JsonText.sub1Go false ((mid ++ ['}']) ++ ['\n', '\x60', '\x60', '\x60']) =
        (mid ++ ['}']) ++ ['\n'] := by
    rw [sub1Go_false_through (mid ++ ['}']) _ hM]
    rfl
  have hps2 :
      JsonText.pyStrip ('\n' :: '{' :: ((mid ++ ['}']) ++ ['\n'])) =
        '{' :: mid ++ ['}'] := by
    rw [JsonText.pyStrip, dw_pos '\n' _ rfl, dw_neg '{' _ rfl]
    have hform : ('{' :: ((mid ++ ['}']) ++ ['\n']) : List Char) =
        ('{' :: mid ++ ['}']) ++ ['\n'] := by
      simp only [List.cons_append, List.append_assoc]
    rw [hform, List.reverse_append, List.reverse_singleton, List.singleton_append,
      dw_pos '\n' _ rfl]
    have hrev : ('{' :: mid ++ ['}'] : List Char).reverse =
        '}' :: ('{' :: mid).reverse := by
      rw [List.reverse_append, List.reverse_singleton, List.singleton_append]
    rw [hrev, dw_neg '}' _ rfl, ← hrev, List.reverse_reverse]
  simp only [cleanedText]
  rw [hdata, hstrip1, hsub1, hthrough, hps2, sub2_obj,
    replaceNl_no_nl _ (obj_no_nl hnl), pyStrip_obj]

end Json

/-- C2: for every JSON object value that is well-formed in the sense of
Python dicts (pairwise-distinct keys at every level), serializing it to
strict JSON text and passing the result to the normalizer — either bare or
wrapped in a \x60\x60\x60json ... \x60\x60\x60 code fence with its surrounding
newlines — returns exactly that value, with no data loss; and in
particular Scenario A's input normalizes to the mapping a ↦ 1. -/
theorem C2_roundtrip_normalize (fields : List (String × JsonValue))
    (hwf : Json.wfObj (.obj fields) = true) :
    clean_json_output (some (Json.dumps (.obj fields))) = .obj fields ∧
    clean_json_output (some (fenceWrap (Json.dumps (.obj fields)))) = .obj fields ∧
    clean_json_output (some "\x60\x60\x60json\n\x7b\"a\": 1\x7d\n\x60\x60\x60") =
      .obj [("a", .num 1)] := by
  have harg : Json.dumps (.obj fields) =
      ⟨'{' :: Json.dumpFields fields ++ ['}']⟩ := by
    rw [show Json.dumps (.obj fields) = ⟨Json.dumpChars (.obj fields)⟩ from rfl,
      Json.dumpChars]
  have hno_nl : ∀ c ∈ Json.dumpFields fields, c ≠ '\n' := by
    intro c hc
    refine Json.dump_no_nl (.obj fields) c ?_
    rw [Json.dumpChars]
    exact List.mem_append.mpr (Or.inl (List.mem_cons_of_mem _ hc))
  have hparse : Json.parseTop ('{' :: Json.dumpFields fields ++ ['}']) =
      .ok (.obj fields) := by
    have h := Json.parseTop_dump (.obj fields) hwf
    rw [Json.dumpChars] at h
    exact h
  refine ⟨?_, ?_, by decide⟩
  · rw [harg]
    have hne : (⟨'{' :: Json.dumpFields fields ++ ['}']⟩ : String) ≠ "" := by
      intro h
      have h2 := congrArg String.data h
      rw [List.cons_append] at h2
      exact List.noConfusion h2
    rw [clean_json_output_some_ne _ hne,
      Json.cleanedText_plain (Json.dumpFields fields) hno_nl, hparse]
  · rw [harg]
    have hne : fenceWrap ⟨'{' :: Json.dumpFields fields ++ ['}']⟩ ≠ "" := by
      intro h
      have h2 := congrArg String.data h
      exact List.noConfusion h2
    rw [clean_json_output_some_ne _ hne,
      Json.cleanedText_fence (Json.dumpFields fields) hno_nl, hparse]

theorem C2_roundtrip_normalize_witness :
    Json.wfObj (.obj [("a", JsonValue.num 1)]) = true ∧
    (clean_json_output (some (Json.dumps (.obj [("a", JsonValue.num 1)]))) =
        .obj [("a", JsonValue.num 1)] ∧
      clean_json_output
          (some (fenceWrap (Json.dumps (.obj [("a", JsonValue.num 1)])))) =
        .obj [("a", JsonValue.num 1)] ∧
      clean_json_output (some "\x60\x60\x60json\n\x7b\"a\": 1\x7d\n\x60\x60\x60") =
        .obj [("a", .num 1)]) :=
  ⟨by decide, C2_roundtrip_normalize [("a", JsonValue.num 1)] (by decide)⟩
